import Mathlib

/-!
Verification of the Church-Database recurrence expander (`src/events/models.py`)
and the TOTP generator/verifier (`src/mfa/models.py`), via a shallow embedding.

Calendar dates are modelled exactly as Python's `datetime.date`: a valid
(year, month, day) triple in the proleptic Gregorian calendar (Python's date
constructor rejects invalid triples, so the Lean type carries the validity
invariant).  Date comparison is chronological order, which on valid triples
coincides with Python's lexicographic tuple comparison; arithmetic goes
through the proleptic Gregorian ordinal (`date.toordinal`, counting from
0001-01-01 = 1).
-/

set_option maxHeartbeats 1600000

namespace ChurchDB

/-- Leap-year test, as Python `calendar.isleap`. -/
def isLeap (y : Nat) : Bool :=
  y % 4 == 0 && (y % 100 != 0 || y % 400 == 0)

/-- Days in month `m` given the leap flag `b` (helper for `monthLength`). -/
def monthLengthB (b : Bool) (m : Nat) : Nat :=
  if m = 2 then (if b then 29 else 28)
  else if m = 4 ∨ m = 6 ∨ m = 9 ∨ m = 11 then 30
  else 31

/-- Days in month `m` of year `y`, as Python `calendar.monthrange(y, m)[1]`. -/
def monthLength (y m : Nat) : Nat := monthLengthB (isLeap y) m

theorem monthLengthB_pos (b : Bool) (m : Nat) : 1 ≤ monthLengthB b m := by
  unfold monthLengthB
  split
  · split <;> omega
  · split <;> omega

theorem monthLength_pos (y m : Nat) : 1 ≤ monthLength y m :=
  monthLengthB_pos (isLeap y) m

/-- Days in year `y` strictly before month `m` (so `daysBeforeMonthB b 1 = 0`),
given the leap flag `b`. -/
def daysBeforeMonthB (b : Bool) : Nat → Nat
  | 0 => 0
  | m + 1 => if m = 0 then 0 else daysBeforeMonthB b m + monthLengthB b m

/-- Days in year `y` strictly before month `m` begins. -/
def daysBeforeMonth (y m : Nat) : Nat := daysBeforeMonthB (isLeap y) m

theorem daysBeforeMonthB_succ (b : Bool) (m : Nat) (h : 1 ≤ m) :
    daysBeforeMonthB b (m + 1) = daysBeforeMonthB b m + monthLengthB b m := by
  match m, h with
  | k + 1, _ => simp [daysBeforeMonthB]

/-- Monotone month offsets: entering a later month means strictly more days
before it, by at least the full earlier month. -/
theorem daysBeforeMonthB_add_le (b : Bool) :
    ∀ m < 13, ∀ m' < 14, 1 ≤ m → m < m' →
      daysBeforeMonthB b m + monthLengthB b m ≤ daysBeforeMonthB b m' := by
  cases b <;> decide

/-- The whole year has `365`/`366` days depending on the leap flag. -/
theorem daysBeforeMonthB_year (b : Bool) :
    daysBeforeMonthB b 12 + monthLengthB b 12 = if b then 366 else 365 := by
  cases b <;> decide

/-- Days before year `y`, Python `datetime._days_before_year`:
`365*(y-1) + (y-1)//4 - (y-1)//100 + (y-1)//400`. -/
def daysBeforeYear (y : Nat) : Nat :=
  365 * (y - 1) + (y - 1) / 4 - (y - 1) / 100 + (y - 1) / 400

theorem isLeap_iff (y : Nat) :
    isLeap y = true ↔ (y % 4 = 0 ∧ (y % 100 ≠ 0 ∨ y % 400 = 0)) := by
  unfold isLeap
  simp only [Bool.and_eq_true, Bool.or_eq_true, beq_iff_eq, bne_iff_ne, ne_eq]

theorem daysBeforeYear_succ (y : Nat) (h : 1 ≤ y) :
    daysBeforeYear (y + 1) = daysBeforeYear y + (if isLeap y then 366 else 365) := by
  by_cases hb : isLeap y = true
  · have hl : y % 4 = 0 ∧ (y % 100 ≠ 0 ∨ y % 400 = 0) := (isLeap_iff y).mp hb
    rw [if_pos hb]
    unfold daysBeforeYear
    rcases hl with ⟨h4, h100 | h400⟩
    · omega
    · omega
  · have hl : ¬ (y % 4 = 0 ∧ (y % 100 ≠ 0 ∨ y % 400 = 0)) := fun hc => hb ((isLeap_iff y).mpr hc)
    rw [if_neg hb]
    unfold daysBeforeYear
    by_cases h4 : y % 4 = 0
    · by_cases h400 : y % 400 = 0
      · exact absurd ⟨h4, Or.inr h400⟩ hl
      · have h100 : y % 100 = 0 := by
          by_contra hc
          exact hl ⟨h4, Or.inl hc⟩
        omega
    · omega

theorem daysBeforeYear_mono {y y' : Nat} (h : y ≤ y') :
    daysBeforeYear y ≤ daysBeforeYear y' := by
  unfold daysBeforeYear
  have h4 : (y - 1) / 4 ≤ (y' - 1) / 4 := Nat.div_le_div_right (by omega)
  have h100 : (y - 1) / 100 ≤ (y' - 1) / 100 := Nat.div_le_div_right (by omega)
  have h400 : (y - 1) / 400 ≤ (y' - 1) / 400 := Nat.div_le_div_right (by omega)
  omega

/-- A date in the proleptic Gregorian calendar, as Python's `datetime.date`:
the constructor only admits valid triples. -/
structure Date where
  year : Nat
  month : Nat
  day : Nat
  valid : 1 ≤ year ∧ 1 ≤ month ∧ month ≤ 12 ∧ 1 ≤ day ∧ day ≤ monthLength year month

instance : DecidableEq Date := fun a b =>
  if h : a.year = b.year ∧ a.month = b.month ∧ a.day = b.day then
    isTrue (by
      obtain ⟨y, m, d, v⟩ := a
      obtain ⟨y', m', d', v'⟩ := b
      obtain ⟨h1, h2, h3⟩ := h
      simp only at h1 h2 h3
      subst h1; subst h2; subst h3
      rfl)
  else
    isFalse fun he => h (by cases he; exact ⟨rfl, rfl, rfl⟩)

/-- Python `date.toordinal()`: day number counting 0001-01-01 as 1. -/
def Date.toOrdinal (d : Date) : Nat :=
  daysBeforeYear d.year + daysBeforeMonth d.year d.month + d.day

theorem Date.toOrdinal_pos (d : Date) : 1 ≤ d.toOrdinal := by
  have h := d.valid
  unfold Date.toOrdinal
  omega

/-- Chronological order on dates.  On valid triples this is exactly Python's
lexicographic `(year, month, day)` comparison. -/
instance : LE Date := ⟨fun a b => a.toOrdinal ≤ b.toOrdinal⟩

instance : LT Date := ⟨fun a b => a.toOrdinal < b.toOrdinal⟩

instance (a b : Date) : Decidable (a ≤ b) :=
  inferInstanceAs (Decidable (a.toOrdinal ≤ b.toOrdinal))

instance (a b : Date) : Decidable (a < b) :=
  inferInstanceAs (Decidable (a.toOrdinal < b.toOrdinal))

theorem Date.le_def (a b : Date) : (a ≤ b) = (a.toOrdinal ≤ b.toOrdinal) := rfl

theorem Date.lt_def (a b : Date) : (a < b) = (a.toOrdinal < b.toOrdinal) := rfl

/-- The day after `d` (the primitive out of which `timedelta(days=n)` addition
is built). -/
def Date.nextDay : Date → Date
  | ⟨y, m, dd, hv⟩ =>
    if h : dd < monthLength y m then
      ⟨y, m, dd + 1, ⟨hv.1, hv.2.1, hv.2.2.1, by omega, by omega⟩⟩
    else if h2 : m < 12 then
      ⟨y, m + 1, 1, ⟨hv.1, by omega, by omega, le_refl 1, monthLength_pos _ _⟩⟩
    else
      ⟨y + 1, 1, 1, ⟨by omega, le_refl 1, by omega, le_refl 1, monthLength_pos _ _⟩⟩

theorem Date.toOrdinal_nextDay (d : Date) : d.nextDay.toOrdinal = d.toOrdinal + 1 := by
  obtain ⟨y, m, dd, hv⟩ := d
  unfold Date.nextDay Date.toOrdinal
  simp only
  split
  · simp only
    omega
  · rename_i h1
    split
    · rename_i h2
      simp only
      unfold daysBeforeMonth
      rw [daysBeforeMonthB_succ _ m hv.2.1]
      have : dd = monthLength y m := by omega
      unfold monthLength at this
      omega
    · rename_i h2
      simp only
      have hm : m = 12 := by omega
      subst hm
      have hml : monthLength y 12 = 31 :=
        (by decide : ∀ b, monthLengthB b 12 = 31) (isLeap y)
      have hdbm : daysBeforeMonth y 12 = if isLeap y then 335 else 334 :=
        (by decide : ∀ b, daysBeforeMonthB b 12 = if b then 335 else 334) (isLeap y)
      have h1B : daysBeforeMonth (y + 1) 1 = 0 :=
        (by decide : ∀ b, daysBeforeMonthB b 1 = 0) (isLeap (y + 1))
      have hyr := daysBeforeYear_succ y hv.1
      rw [h1B]
      by_cases hb : isLeap y = true
      · rw [if_pos hb] at hdbm hyr; omega
      · rw [if_neg hb] at hdbm hyr; omega

/-- `d + timedelta(days = n)`. -/
def Date.addDays (d : Date) : Nat → Date
  | 0 => d
  | n + 1 => d.nextDay.addDays n

theorem Date.toOrdinal_addDays (d : Date) (n : Nat) :
    (d.addDays n).toOrdinal = d.toOrdinal + n := by
  induction n generalizing d with
  | zero => rfl
  | succ k ih =>
    show (d.nextDay.addDays k).toOrdinal = _
    rw [ih d.nextDay, Date.toOrdinal_nextDay]
    omega

theorem Date.addDays_addDays (d : Date) (a b : Nat) :
    (d.addDays a).addDays b = d.addDays (a + b) := by
  induction a generalizing d with
  | zero => simp [Date.addDays]
  | succ k ih =>
    have h1 : d.addDays (k + 1) = d.nextDay.addDays k := rfl
    have h2 : k + 1 + b = k + b + 1 := by omega
    have h3 : d.addDays (k + b + 1) = d.nextDay.addDays (k + b) := rfl
    rw [h1, h2, h3]
    exact ih d.nextDay

/-- Python `date.weekday()`: 0 = Monday … 6 = Sunday. -/
def Date.weekday (d : Date) : Nat := (d.toOrdinal + 6) % 7

theorem Date.weekday_lt (d : Date) : d.weekday < 7 := Nat.mod_lt _ (by omega)

theorem Date.weekday_addDays (d : Date) (n : Nat) :
    (d.addDays n).weekday = (d.weekday + n) % 7 := by
  unfold Date.weekday
  rw [Date.toOrdinal_addDays]
  omega

/-- Chronological comparison from the (year, month) pair alone: any valid day
in an earlier month comes before any day of a later month. -/
theorem toOrdinal_lt_of_ym_lt {y1 m1 d1 y2 m2 d2 : Nat}
    (h1y : 1 ≤ y1) (h1m : 1 ≤ m1) (h1m12 : m1 ≤ 12) (hd1 : d1 ≤ monthLength y1 m1)
    (h2m : 1 ≤ m2) (h2m12 : m2 ≤ 12) (hd2 : 1 ≤ d2)
    (hlt : 12 * y1 + m1 < 12 * y2 + m2) :
    daysBeforeYear y1 + daysBeforeMonth y1 m1 + d1 <
      daysBeforeYear y2 + daysBeforeMonth y2 m2 + d2 := by
  have hcase : y1 = y2 ∧ m1 < m2 ∨ y1 < y2 := by omega
  rcases hcase with ⟨rfl, hm⟩ | hy
  · have hstep := daysBeforeMonthB_add_le (isLeap y1) m1 (by omega) m2 (by omega) h1m hm
    unfold daysBeforeMonth
    unfold monthLength at hd1
    omega
  · have hstep := daysBeforeMonthB_add_le (isLeap y1) m1 (by omega) 13 (by omega) h1m (by omega)
    have hyear : daysBeforeMonthB (isLeap y1) 13 =
        daysBeforeMonthB (isLeap y1) 12 + monthLengthB (isLeap y1) 12 :=
      daysBeforeMonthB_succ (isLeap y1) 12 (by omega)
    have hfull := daysBeforeMonthB_year (isLeap y1)
    have hsucc := daysBeforeYear_succ y1 h1y
    have hmono : daysBeforeYear (y1 + 1) ≤ daysBeforeYear y2 := daysBeforeYear_mono (by omega)
    unfold daysBeforeMonth
    unfold monthLength at hd1
    by_cases hb : isLeap y1 = true
    · rw [if_pos hb] at hfull hsucc
      omega
    · rw [if_neg hb] at hfull hsucc
      omega

/-- The monthly branch of `Event._next_occurrence_date`: same day of the next
month, with the day clamped to the target month's length. -/
def Date.monthlyNext : Date → Date
  | ⟨y, m, dd, hv⟩ =>
    if h : m = 12 then
      ⟨y + 1, 1, min dd (monthLength (y + 1) 1), by
        have hml := monthLength_pos (y + 1) 1
        exact ⟨by omega, le_refl 1, by omega, by omega, by omega⟩⟩
    else
      ⟨y, m + 1, min dd (monthLength y (m + 1)), by
        have hml := monthLength_pos y (m + 1)
        exact ⟨hv.1, by omega, by omega, by omega, by omega⟩⟩

theorem Date.lt_monthlyNext (d : Date) : d < d.monthlyNext := by
  obtain ⟨y, m, dd, hv⟩ := d
  have hy := hv.1
  have hm1 := hv.2.1
  have hm12 := hv.2.2.1
  have hd1 := hv.2.2.2.1
  have hd2 := hv.2.2.2.2
  show Date.toOrdinal ⟨y, m, dd, hv⟩ < Date.toOrdinal (Date.monthlyNext ⟨y, m, dd, hv⟩)
  simp only [Date.monthlyNext]
  split
  · rename_i h
    show daysBeforeYear y + daysBeforeMonth y m + dd <
      daysBeforeYear (y + 1) + daysBeforeMonth (y + 1) 1 + min dd (monthLength (y + 1) 1)
    have hml := monthLength_pos (y + 1) 1
    exact toOrdinal_lt_of_ym_lt hy hm1 hm12 hd2 (le_refl 1) (by omega) (by omega) (by omega)
  · rename_i h
    show daysBeforeYear y + daysBeforeMonth y m + dd <
      daysBeforeYear y + daysBeforeMonth y (m + 1) + min dd (monthLength y (m + 1))
    have hml := monthLength_pos y (m + 1)
    exact toOrdinal_lt_of_ym_lt hy hm1 hm12 hd2 (by omega) (by omega) (by omega) (by omega)

/-- The recurrence-relevant fields of `events.models.Event`.  Times are opaque
codes; `recurrence_pattern` is the raw string, blank when unset. -/
structure Event where
  is_recurring : Bool
  recurrence_pattern : String
  recurrence_weekday : Option Nat
  recurrence_until : Option Date
  start_date : Date
  end_date : Option Date
  start_time : Nat
  end_time : Option Nat

/-- `Event._next_occurrence_date`: the successor of a cursor date under the
event's recurrence pattern, `none` for unrecognised (e.g. blank) patterns. -/
def Event.nextOccurrenceDate (e : Event) (d : Date) : Option Date :=
  if e.recurrence_pattern = "daily" then some (d.addDays 1)
  else if e.recurrence_pattern = "weekly" then some (d.addDays 7)
  else if e.recurrence_pattern = "biweekly" then some (d.addDays 14)
  else if e.recurrence_pattern = "monthly" then some d.monthlyNext
  else none

/-- `Event._first_recurrence_cursor`: the anchor date, shifted forward to the
configured weekday for weekly/biweekly rules.  Python's
`(weekday - start.weekday()) % 7` is integer remainder with a positive
modulus, hence the `Int.emod`/`toNat`. -/
def Event.firstRecurrenceCursor (e : Event) : Date :=
  match e.recurrence_weekday with
  | some w =>
    if e.recurrence_pattern = "weekly" ∨ e.recurrence_pattern = "biweekly" then
      e.start_date.addDays ((((w : Int) - (e.start_date.weekday : Int)) % 7).toNat)
    else e.start_date
  | none => e.start_date

/-- The `while candidate < start: candidate += timedelta(days=step)` correction
loop of `Event._fast_forward_cursor` (weekly/biweekly branches).  `fuel` bounds
the iteration count; callers pass a provably sufficient bound, so the loop
semantics are those of the unbounded `while`. -/
def ffBumpGo (step : Nat) (start : Date) : Nat → Date → Date
  | 0, c => c
  | fuel + 1, c => if c < start then ffBumpGo step start fuel (c.addDays step) else c

/-- The `while candidate < start: candidate = self._next_occurrence_date(candidate)`
loop of the monthly branch of `Event._fast_forward_cursor` (for a monthly rule
the successor is always `Date.monthlyNext`). -/
def ffMonthlyGo (start : Date) : Nat → Date → Date
  | 0, c => c
  | fuel + 1, c => if c < start then ffMonthlyGo start fuel c.monthlyNext else c

/-- The `year/month` incrementing `for` loop of the monthly branch of
`Event._fast_forward_cursor`. -/
def addMonthsPair : Nat × Nat → Nat → Nat × Nat
  | ym, 0 => ym
  | (y, m), n + 1 => addMonthsPair (if m = 12 then (y + 1, 1) else (y, m + 1)) n

theorem addMonthsPair_bounds :
    ∀ (n y m : Nat), 1 ≤ y → 1 ≤ m → m ≤ 12 →
      1 ≤ (addMonthsPair (y, m) n).1 ∧ 1 ≤ (addMonthsPair (y, m) n).2 ∧
        (addMonthsPair (y, m) n).2 ≤ 12 := by
  intro n
  induction n with
  | zero => intro y m hy hm hm12; exact ⟨hy, hm, hm12⟩
  | succ k ih =>
    intro y m hy hm hm12
    have hunf : addMonthsPair (y, m) (k + 1) =
        addMonthsPair (if m = 12 then (y + 1, 1) else (y, m + 1)) k := rfl
    rw [hunf]
    split
    · exact ih (y + 1) 1 (by omega) (le_refl 1) (by omega)
    · exact ih y (m + 1) hy (by omega) (by omega)

theorem addMonthsPair_index :
    ∀ (n y m : Nat), 1 ≤ m → m ≤ 12 →
      12 * (addMonthsPair (y, m) n).1 + (addMonthsPair (y, m) n).2 = 12 * y + m + n := by
  intro n
  induction n with
  | zero => intro y m _ _; rfl
  | succ k ih =>
    intro y m hm hm12
    have hunf : addMonthsPair (y, m) (k + 1) =
        addMonthsPair (if m = 12 then (y + 1, 1) else (y, m + 1)) k := rfl
    rw [hunf]
    split
    · rename_i h
      rw [ih (y + 1) 1 (le_refl 1) (by omega)]
      omega
    · rename_i h
      rw [ih y (m + 1) (by omega) (by omega)]
      omega

/-- `Event._fast_forward_cursor`: jump the recurrence cursor towards the window
start with closed-form arithmetic, then correct with at most a few successor
steps. -/
def Event.fastForwardCursor (e : Event) (cursor start : Date) : Date :=
  if start ≤ cursor then cursor
  else if e.recurrence_pattern = "daily" then
    cursor.addDays (start.toOrdinal - cursor.toOrdinal)
  else if e.recurrence_pattern = "weekly" then
    ffBumpGo 7 start start.toOrdinal
      (cursor.addDays ((start.toOrdinal - cursor.toOrdinal) / 7 * 7))
  else if e.recurrence_pattern = "biweekly" then
    ffBumpGo 14 start start.toOrdinal
      (cursor.addDays ((start.toOrdinal - cursor.toOrdinal) / 14 * 14))
  else if e.recurrence_pattern = "monthly" then
    let monthsApart : Int :=
      ((start.year : Int) - (cursor.year : Int)) * 12 +
        ((start.month : Int) - (cursor.month : Int))
    if monthsApart ≤ 0 then cursor
    else
      ffMonthlyGo start start.toOrdinal
        ⟨(addMonthsPair (cursor.year, cursor.month) monthsApart.toNat).1,
         (addMonthsPair (cursor.year, cursor.month) monthsApart.toNat).2,
         min cursor.day
           (monthLength (addMonthsPair (cursor.year, cursor.month) monthsApart.toNat).1
             (addMonthsPair (cursor.year, cursor.month) monthsApart.toNat).2), by
          have hv := cursor.valid
          have hb := addMonthsPair_bounds monthsApart.toNat cursor.year cursor.month
            hv.1 hv.2.1 hv.2.2.1
          have hml := monthLength_pos
            (addMonthsPair (cursor.year, cursor.month) monthsApart.toNat).1
            (addMonthsPair (cursor.year, cursor.month) monthsApart.toNat).2
          exact ⟨hb.1, hb.2.1, hb.2.2, by omega, by omega⟩⟩
  else cursor

/-- A row of `events.models.EventOccurrence` (for a fixed parent event): the
date key plus the editable payload fields. -/
structure Occurrence where
  occurrence_date : Date
  start_time : Nat
  end_time : Option Nat
  leader : Option Nat
  is_cancelled : Bool
  notes : String
deriving DecidableEq

/-- The `(not self.recurrence_until or cursor <= self.recurrence_until)` test
in the generation loop. -/
def Event.withinUntil (e : Event) (c : Date) : Bool :=
  match e.recurrence_until with
  | none => true
  | some u => decide (c ≤ u)

/-- The cursor loop of `Event.generate_occurrences`: iterate while the cursor
is a date `≤ endD`; for every retained cursor date do a get-or-create keyed on
the date, with the event's anchor times as defaults, counting fresh inserts.
`fuel` bounds the iterations; the wrapper passes a provably sufficient bound. -/
def genGo (e : Event) (start endD : Date) :
    Nat → Option Date → Nat → List Occurrence → Nat × List Occurrence
  | 0, _, created, occs => (created, occs)
  | _ + 1, none, created, occs => (created, occs)
  | fuel + 1, some c, created, occs =>
    if c ≤ endD then
      if start ≤ c ∧ e.withinUntil c then
        if occs.any (fun o => o.occurrence_date == c) then
          genGo e start endD fuel (e.nextOccurrenceDate c) created occs
        else
          genGo e start endD fuel (e.nextOccurrenceDate c) (created + 1)
            (occs ++ [⟨c, e.start_time, e.end_time, none, false, ""⟩])
      else
        genGo e start endD fuel (e.nextOccurrenceDate c) created occs
    else (created, occs)

/-- `Event.generate_occurrences`.  The occurrence table for this event is the
list `occs`; returns `(created, table')`.  `None` arguments take the source's
defaults; `replace_existing` first deletes rows dated within the window. -/
def Event.generateOccurrences (e : Event) (range_start range_end : Option Date)
    (replace_existing : Bool) (occs : List Occurrence) : Nat × List Occurrence :=
  if !e.is_recurring then (0, occs)
  else
    let start := range_start.getD e.start_date
    let maxEnd := e.recurrence_until.getD (e.end_date.getD e.start_date)
    let endD := range_end.getD maxEnd
    if endD < start then (0, occs)
    else
      let occs1 :=
        if replace_existing then
          occs.filter (fun o =>
            !(decide (start ≤ o.occurrence_date) && decide (o.occurrence_date ≤ endD)))
        else occs
      genGo e start endD (endD.toOrdinal + 1)
        (some (e.fastForwardCursor e.firstRecurrenceCursor start)) 0 occs1

/-- Naive cursor enumeration: the dates visited by repeatedly applying
`Event._next_occurrence_date`, cut off beyond `endD`.  `fuel` bounds the
iterations; callers pass a provably sufficient bound. -/
def cursorSeqGo (e : Event) (endD : Date) : Nat → Option Date → List Date
  | 0, _ => []
  | _ + 1, none => []
  | fuel + 1, some c =>
    if c ≤ endD then c :: cursorSeqGo e endD fuel (e.nextOccurrenceDate c) else []

/-- The dates that naive one-step iteration from the first recurrence cursor
visits without ever exceeding `endD`. -/
def Event.naiveCursorSeq (e : Event) (endD : Date) : List Date :=
  cursorSeqGo e endD (endD.toOrdinal + 1) (some e.firstRecurrenceCursor)

theorem Date.le_of_lt {a b : Date} (h : a < b) : a ≤ b := Nat.le_of_lt h

theorem Date.le_trans {a b c : Date} (h1 : a ≤ b) (h2 : b ≤ c) : a ≤ c := Nat.le_trans h1 h2

theorem Date.lt_of_lt_of_le {a b c : Date} (h1 : a < b) (h2 : b ≤ c) : a < c :=
  Nat.lt_of_lt_of_le h1 h2

theorem Date.lt_of_le_of_lt {a b c : Date} (h1 : a ≤ b) (h2 : b < c) : a < c :=
  Nat.lt_of_le_of_lt h1 h2

theorem Date.not_le {a b : Date} : ¬ a ≤ b ↔ b < a := Nat.not_le

theorem Date.not_lt {a b : Date} : ¬ a < b ↔ b ≤ a := Nat.not_lt

theorem Date.lt_addDays (d : Date) (n : Nat) (hn : 1 ≤ n) : d < d.addDays n := by
  show d.toOrdinal < (d.addDays n).toOrdinal
  rw [Date.toOrdinal_addDays]
  omega

theorem Event.nextOccurrenceDate_lt (e : Event) (d d' : Date)
    (h : e.nextOccurrenceDate d = some d') : d < d' := by
  unfold Event.nextOccurrenceDate at h
  by_cases h1 : e.recurrence_pattern = "daily"
  · rw [if_pos h1] at h
    exact (Option.some.inj h) ▸ d.lt_addDays 1 (by omega)
  · rw [if_neg h1] at h
    by_cases h2 : e.recurrence_pattern = "weekly"
    · rw [if_pos h2] at h
      exact (Option.some.inj h) ▸ d.lt_addDays 7 (by omega)
    · rw [if_neg h2] at h
      by_cases h3 : e.recurrence_pattern = "biweekly"
      · rw [if_pos h3] at h
        exact (Option.some.inj h) ▸ d.lt_addDays 14 (by omega)
      · rw [if_neg h3] at h
        by_cases h4 : e.recurrence_pattern = "monthly"
        · rw [if_pos h4] at h
          exact (Option.some.inj h) ▸ d.lt_monthlyNext
        · rw [if_neg h4] at h
          exact Option.noConfusion h

theorem Event.nextOccurrenceDate_none_iff (e : Event) (d : Date) :
    e.nextOccurrenceDate d = none ↔
      ¬(e.recurrence_pattern = "daily" ∨ e.recurrence_pattern = "weekly" ∨
        e.recurrence_pattern = "biweekly" ∨ e.recurrence_pattern = "monthly") := by
  unfold Event.nextOccurrenceDate
  by_cases h1 : e.recurrence_pattern = "daily"
  · rw [if_pos h1]
    simp [h1]
  · rw [if_neg h1]
    by_cases h2 : e.recurrence_pattern = "weekly"
    · rw [if_pos h2]
      simp [h2]
    · rw [if_neg h2]
      by_cases h3 : e.recurrence_pattern = "biweekly"
      · rw [if_pos h3]
        simp [h3]
      · rw [if_neg h3]
        by_cases h4 : e.recurrence_pattern = "monthly"
        · rw [if_pos h4]
          simp [h4]
        · rw [if_neg h4]
          simp [h1, h2, h3, h4]

/-- 0001-01-01 — a Monday (`weekday 0`), used as a small concrete anchor. -/
def dateOne : Date := ⟨1, 1, 1, by decide⟩

/-- A minimal recurring daily event anchored on `dateOne`. -/
def sampleDaily : Event := ⟨true, "daily", none, none, dateOne, none, 0, none⟩

/-- A recurring event whose `recurrence_pattern` is left blank. -/
def sampleBlank : Event := ⟨true, "", none, none, dateOne, none, 0, none⟩

/-- A weekly event configured for Wednesday (`weekday = 2`) anchored on a
Monday. -/
def sampleWeeklyWed : Event := ⟨true, "weekly", some 2, none, dateOne, none, 0, none⟩

/-- A non-recurring event (`is_recurring = False`). -/
def sampleOff : Event := ⟨false, "weekly", some 2, none, dateOne, none, 0, none⟩

/-- C10: for the daily, weekly, biweekly and monthly patterns the successor
function `_next_occurrence_date` returns a strictly later date (so the
generation loop's cursor strictly advances and exits once past `range_end`),
and for every other pattern value it returns `None`, which also ends the loop.
In the embedding the loop is realised with a fuel bound that these two facts
prove sufficient, so `generate_occurrences` is total. -/
theorem nextOccurrenceDate_progress (e : Event) (d : Date) :
    (∀ d', e.nextOccurrenceDate d = some d' → d < d') ∧
      (e.nextOccurrenceDate d = none ↔
        ¬(e.recurrence_pattern = "daily" ∨ e.recurrence_pattern = "weekly" ∨
          e.recurrence_pattern = "biweekly" ∨ e.recurrence_pattern = "monthly")) :=
  ⟨fun d' h => e.nextOccurrenceDate_lt d d' h, e.nextOccurrenceDate_none_iff d⟩

theorem nextOccurrenceDate_progress_witness :
    dateOne < dateOne.addDays 1 ∧
      (sampleBlank.nextOccurrenceDate dateOne = none ↔
        ¬(sampleBlank.recurrence_pattern = "daily" ∨
          sampleBlank.recurrence_pattern = "weekly" ∨
          sampleBlank.recurrence_pattern = "biweekly" ∨
          sampleBlank.recurrence_pattern = "monthly")) :=
  ⟨(nextOccurrenceDate_progress sampleDaily dateOne).1 (dateOne.addDays 1) rfl,
   (nextOccurrenceDate_progress sampleBlank dateOne).2⟩

/-- C6 (confirmed): an inverted window (`range_end < range_start`) makes
`generate_occurrences` return 0 and leave the table untouched — even with
`replace_existing = True` the deletion is never reached — and this is a plain
return, not an error. -/
theorem generateOccurrences_inverted_window (e : Event) (s en : Date)
    (rep : Bool) (occs : List Occurrence) (h : en < s) :
    e.generateOccurrences (some s) (some en) rep occs = (0, occs) := by
  unfold Event.generateOccurrences
  cases hr : e.is_recurring
  · rfl
  · simp only [Bool.not_true, Option.getD_some]
    rw [if_neg (by simp), if_pos h]

theorem generateOccurrences_inverted_window_witness :
    sampleDaily.generateOccurrences (some (dateOne.addDays 3)) (some dateOne) true [] =
      (0, []) :=
  generateOccurrences_inverted_window sampleDaily (dateOne.addDays 3) dateOne true []
    (by decide)

/-- C7 (confirmed): for a weekly or biweekly rule with a configured weekday,
the first recurrence cursor is `start_date` shifted forward by `k ∈ [0, 6]`
days to the first date on or after `start_date` whose weekday matches; in
particular with `weekday = 2` (Wednesday) and a Monday anchor the first
occurrence falls on the following Wednesday, not on `start_date`. -/
theorem firstRecurrenceCursor_weekday (e : Event) (w : Nat)
    (hw : e.recurrence_weekday = some w) (hw6 : w ≤ 6)
    (hp : e.recurrence_pattern = "weekly" ∨ e.recurrence_pattern = "biweekly") :
    ∃ k ≤ 6, e.firstRecurrenceCursor = e.start_date.addDays k ∧
      (e.start_date.addDays k).weekday = w ∧
      ∀ j < k, (e.start_date.addDays j).weekday ≠ w := by
  have hwd := e.start_date.weekday_lt
  unfold Event.firstRecurrenceCursor
  simp only [hw]
  rw [if_pos hp]
  refine ⟨(((w : Int) - (e.start_date.weekday : Int)) % 7).toNat, by omega, rfl, ?_, ?_⟩
  · rw [Date.weekday_addDays]
    omega
  · intro j hj
    rw [Date.weekday_addDays]
    omega

theorem firstRecurrenceCursor_weekday_witness :
    sampleWeeklyWed.firstRecurrenceCursor = dateOne.addDays 2 ∧
      dateOne.addDays 2 ≠ dateOne ∧
      (∃ k ≤ 6, sampleWeeklyWed.firstRecurrenceCursor = sampleWeeklyWed.start_date.addDays k ∧
        (sampleWeeklyWed.start_date.addDays k).weekday = 2 ∧
        ∀ j < k, (sampleWeeklyWed.start_date.addDays j).weekday ≠ 2) :=
  ⟨by decide, by decide,
   firstRecurrenceCursor_weekday sampleWeeklyWed 2 rfl (by omega) (Or.inl rfl)⟩

/-- Everything one run of the generation loop does to the table: it only
appends fresh rows, each carrying the default payload (`leader`/`notes`/
`is_cancelled`), the event's anchor times, and a date that passed the loop's
window and `recurrence_until` tests, at or after the starting cursor. -/
theorem genGo_spec (e : Event) (start endD : Date) :
    ∀ (fuel : Nat) (cur : Option Date) (created : Nat) (occs : List Occurrence),
      ∃ new, genGo e start endD fuel cur created occs = (created + new.length, occs ++ new) ∧
        ∀ o ∈ new, o.leader = none ∧ o.is_cancelled = false ∧ o.notes = "" ∧
          o.start_time = e.start_time ∧ o.end_time = e.end_time ∧
          start ≤ o.occurrence_date ∧ o.occurrence_date ≤ endD ∧
          e.withinUntil o.occurrence_date = true ∧
          ∀ c0, cur = some c0 → c0 ≤ o.occurrence_date := by
  intro fuel
  induction fuel with
  | zero =>
    intro cur created occs
    exact ⟨[], by simp [genGo], by simp⟩
  | succ f ih =>
    intro cur created occs
    cases cur with
    | none => exact ⟨[], by simp [genGo], by simp⟩
    | some c =>
      have hunf : genGo e start endD (f + 1) (some c) created occs =
          if c ≤ endD then
            if start ≤ c ∧ e.withinUntil c = true then
              if occs.any (fun o => o.occurrence_date == c) = true then
                genGo e start endD f (e.nextOccurrenceDate c) created occs
              else
                genGo e start endD f (e.nextOccurrenceDate c) (created + 1)
                  (occs ++ [⟨c, e.start_time, e.end_time, none, false, ""⟩])
            else
              genGo e start endD f (e.nextOccurrenceDate c) created occs
          else (created, occs) := rfl
      by_cases hend : c ≤ endD
      swap
      · rw [hunf, if_neg hend]
        exact ⟨[], by simp, by simp⟩
      rw [hunf, if_pos hend]
      have htail : ∀ (created' : Nat) (occs' : List Occurrence),
          ∃ new, genGo e start endD f (e.nextOccurrenceDate c) created' occs' =
            (created' + new.length, occs' ++ new) ∧
          ∀ o ∈ new, o.leader = none ∧ o.is_cancelled = false ∧ o.notes = "" ∧
            o.start_time = e.start_time ∧ o.end_time = e.end_time ∧
            start ≤ o.occurrence_date ∧ o.occurrence_date ≤ endD ∧
            e.withinUntil o.occurrence_date = true ∧ c ≤ o.occurrence_date := by
        intro created' occs'
        obtain ⟨new, heq, hprops⟩ := ih (e.nextOccurrenceDate c) created' occs'
        cases hnc : e.nextOccurrenceDate c with
        | none =>
          rw [hnc] at heq
          have hzero : genGo e start endD f none created' occs' = (created', occs') := by
            cases f <;> rfl
          rw [hzero] at heq
          have h1 : created' = created' + new.length := congrArg Prod.fst heq
          have hnil : new = [] := List.length_eq_zero.mp (by omega)
          subst hnil
          exact ⟨[], by rw [hzero]; simp, by simp⟩
        | some c' =>
          rw [hnc] at heq
          have hlt : c < c' := e.nextOccurrenceDate_lt c c' hnc
          refine ⟨new, heq, ?_⟩
          intro o ho
          obtain ⟨p1, p2, p3, p4, p5, p6, p7, p8, p9⟩ := hprops o ho
          exact ⟨p1, p2, p3, p4, p5, p6, p7, p8,
            Date.le_trans (Date.le_of_lt hlt) (p9 c' hnc)⟩
      by_cases hret : start ≤ c ∧ e.withinUntil c = true
      swap
      · rw [if_neg hret]
        obtain ⟨new, heq, hprops⟩ := htail created occs
        refine ⟨new, heq, ?_⟩
        intro o ho
        obtain ⟨p1, p2, p3, p4, p5, p6, p7, p8, p9⟩ := hprops o ho
        exact ⟨p1, p2, p3, p4, p5, p6, p7, p8,
          fun c0 hc0 => (Option.some.inj hc0) ▸ p9⟩
      · rw [if_pos hret]
        by_cases hins : occs.any (fun o => o.occurrence_date == c) = true
        · rw [if_pos hins]
          obtain ⟨new, heq, hprops⟩ := htail created occs
          refine ⟨new, heq, ?_⟩
          intro o ho
          obtain ⟨p1, p2, p3, p4, p5, p6, p7, p8, p9⟩ := hprops o ho
          exact ⟨p1, p2, p3, p4, p5, p6, p7, p8,
            fun c0 hc0 => (Option.some.inj hc0) ▸ p9⟩
        · rw [if_neg hins]
          obtain ⟨new, heq, hprops⟩ :=
            htail (created + 1) (occs ++ [⟨c, e.start_time, e.end_time, none, false, ""⟩])
          refine ⟨⟨c, e.start_time, e.end_time, none, false, ""⟩ :: new, ?_, ?_⟩
          · rw [heq]
            simp only [Prod.mk.injEq, List.length_cons]
            exact ⟨by omega, by simp⟩
          · intro o ho
            rcases List.mem_cons.mp ho with rfl | ho'
            · exact ⟨rfl, rfl, rfl, rfl, rfl, hret.1, hend, hret.2,
                fun c0 hc0 => (Option.some.inj hc0) ▸ Nat.le_refl _⟩
            · obtain ⟨p1, p2, p3, p4, p5, p6, p7, p8, p9⟩ := hprops o ho'
              exact ⟨p1, p2, p3, p4, p5, p6, p7, p8,
                fun c0 hc0 => (Option.some.inj hc0) ▸ p9⟩

theorem generateOccurrences_not_recurring_eq (e : Event) (rs re : Option Date)
    (rep : Bool) (occs : List Occurrence) (hr : e.is_recurring = false) :
    e.generateOccurrences rs re rep occs = (0, occs) := by
  unfold Event.generateOccurrences
  rw [hr]
  rfl

theorem generateOccurrences_unfold (e : Event) (rs re : Option Date)
    (rep : Bool) (occs : List Occurrence) (hr : e.is_recurring = true) :
    e.generateOccurrences rs re rep occs =
      if re.getD (e.recurrence_until.getD (e.end_date.getD e.start_date)) <
          rs.getD e.start_date then (0, occs)
      else
        genGo e (rs.getD e.start_date)
          (re.getD (e.recurrence_until.getD (e.end_date.getD e.start_date)))
          ((re.getD (e.recurrence_until.getD (e.end_date.getD e.start_date))).toOrdinal + 1)
          (some (e.fastForwardCursor e.firstRecurrenceCursor (rs.getD e.start_date))) 0
          (if rep then
            occs.filter (fun o =>
              !(decide (rs.getD e.start_date ≤ o.occurrence_date) &&
                decide (o.occurrence_date ≤
                  re.getD (e.recurrence_until.getD (e.end_date.getD e.start_date)))))
          else occs) := by
  unfold Event.generateOccurrences
  rw [hr]
  rfl

/-- C2 (amended, confirmed part): an event whose `is_recurring` flag is false
never produces occurrences: `generate_occurrences` returns 0 and leaves the
table unchanged for every window and every `replace_existing`.  (The other
disjunct of the original claim — a blank `recurrence_pattern` with
`is_recurring = True` — is refuted by `generate_blank_pattern_creates_row`.) -/
theorem generateOccurrences_not_recurring (e : Event) (rs re : Option Date)
    (rep : Bool) (occs : List Occurrence) (hr : e.is_recurring = false) :
    e.generateOccurrences rs re rep occs = (0, occs) :=
  generateOccurrences_not_recurring_eq e rs re rep occs hr

theorem generateOccurrences_not_recurring_witness :
    sampleOff.generateOccurrences (some dateOne) (some (dateOne.addDays 30)) true
      [⟨dateOne, 0, none, none, false, ""⟩] = (0, [⟨dateOne, 0, none, none, false, ""⟩]) :=
  generateOccurrences_not_recurring sampleOff (some dateOne) (some (dateOne.addDays 30))
    true [⟨dateOne, 0, none, none, false, ""⟩] rfl

/-- C2 (counterexample): an event with `is_recurring = True` but a blank
`recurrence_pattern` does create an occurrence row (at the initial cursor)
when the window contains its `start_date`, so `generate_occurrences` does not
return 0 for every event whose pattern is unset. -/
theorem generate_blank_pattern_creates_row :
    sampleBlank.recurrence_pattern = "" ∧ sampleBlank.is_recurring = true ∧
      (sampleBlank.generateOccurrences none none false []).1 = 1 :=
  ⟨rfl, rfl, by decide⟩

/-- C5 (confirmed): with `replace_existing = False` the table is only appended
to — every pre-existing row survives with all fields (leader, notes,
is_cancelled, start/end times) intact — the returned count is exactly the
number of newly inserted rows, and each new row takes its times from the
rule's anchor times (and default payload). -/
theorem generateOccurrences_frame (e : Event) (rs re : Option Date)
    (occs : List Occurrence) :
    ∃ new, e.generateOccurrences rs re false occs = (new.length, occs ++ new) ∧
      ∀ o ∈ new, o.start_time = e.start_time ∧ o.end_time = e.end_time ∧
        o.leader = none ∧ o.is_cancelled = false ∧ o.notes = "" := by
  cases hr : e.is_recurring
  · exact ⟨[], by rw [generateOccurrences_not_recurring_eq e rs re false occs hr]; simp,
      by simp⟩
  · rw [generateOccurrences_unfold e rs re false occs hr]
    by_cases hlt : re.getD (e.recurrence_until.getD (e.end_date.getD e.start_date)) <
        rs.getD e.start_date
    · rw [if_pos hlt]
      exact ⟨[], by simp, by simp⟩
    · rw [if_neg hlt]
      obtain ⟨new, heq, hprops⟩ := genGo_spec e (rs.getD e.start_date)
        (re.getD (e.recurrence_until.getD (e.end_date.getD e.start_date)))
        ((re.getD (e.recurrence_until.getD (e.end_date.getD e.start_date))).toOrdinal + 1)
        (some (e.fastForwardCursor e.firstRecurrenceCursor (rs.getD e.start_date))) 0 occs
      refine ⟨new, ?_, ?_⟩
      · show genGo _ _ _ _ _ 0 occs = _
        rw [heq]
        simp
      · intro o ho
        obtain ⟨p1, p2, p3, p4, p5, _, _, _, _⟩ := hprops o ho
        exact ⟨p4, p5, p1, p2, p3⟩

theorem generateOccurrences_frame_witness :
    ∃ new, sampleDaily.generateOccurrences (some dateOne) (some (dateOne.addDays 2)) false
        [⟨dateOne, 7, none, some 42, true, "edited"⟩] =
        (new.length, [⟨dateOne, 7, none, some 42, true, "edited"⟩] ++ new) ∧
      ∀ o ∈ new, o.start_time = sampleDaily.start_time ∧ o.end_time = sampleDaily.end_time ∧
        o.leader = none ∧ o.is_cancelled = false ∧ o.notes = "" :=
  generateOccurrences_frame sampleDaily (some dateOne) (some (dateOne.addDays 2))
    [⟨dateOne, 7, none, some 42, true, "edited"⟩]

/-- A date is at most the "same (clamped) day in a strictly later month". -/
theorem cursor_le_clamped_ord (c : Date) (y m : Nat) (hm1 : 1 ≤ m) (hm12 : m ≤ 12)
    (hgt : 12 * c.year + c.month < 12 * y + m) :
    c.toOrdinal ≤ daysBeforeYear y + daysBeforeMonth y m + min c.day (monthLength y m) := by
  have hv := c.valid
  have hml := monthLength_pos y m
  refine Nat.le_of_lt (toOrdinal_lt_of_ym_lt hv.1 hv.2.1 hv.2.2.1 hv.2.2.2.2 hm1 hm12 ?_ hgt)
  exact le_min hv.2.2.2.1 hml

theorem ffBumpGo_ge (step : Nat) (start : Date) :
    ∀ (fuel : Nat) (c : Date), c ≤ ffBumpGo step start fuel c := by
  intro fuel
  induction fuel with
  | zero => intro c; exact Nat.le_refl _
  | succ f ih =>
    intro c
    show c ≤ if c < start then ffBumpGo step start f (c.addDays step) else c
    split
    · exact Date.le_trans (show c ≤ c.addDays step by
        show c.toOrdinal ≤ (c.addDays step).toOrdinal
        rw [Date.toOrdinal_addDays]; omega) (ih (c.addDays step))
    · exact Nat.le_refl _

theorem ffMonthlyGo_ge (start : Date) :
    ∀ (fuel : Nat) (c : Date), c ≤ ffMonthlyGo start fuel c := by
  intro fuel
  induction fuel with
  | zero => intro c; exact Nat.le_refl _
  | succ f ih =>
    intro c
    show c ≤ if c < start then ffMonthlyGo start f c.monthlyNext else c
    split
    · exact Date.le_trans (Date.le_of_lt c.lt_monthlyNext) (ih c.monthlyNext)
    · exact Nat.le_refl _

/-- The fast-forward jump never moves the cursor backwards. -/
theorem Event.le_fastForwardCursor (e : Event) (cursor start : Date) :
    cursor ≤ e.fastForwardCursor cursor start := by
  unfold Event.fastForwardCursor
  by_cases h0 : start ≤ cursor
  · rw [if_pos h0]; exact Nat.le_refl _
  · rw [if_neg h0]
    by_cases h1 : e.recurrence_pattern = "daily"
    · rw [if_pos h1]
      show cursor.toOrdinal ≤ (cursor.addDays _).toOrdinal
      rw [Date.toOrdinal_addDays]; omega
    · rw [if_neg h1]
      by_cases h2 : e.recurrence_pattern = "weekly"
      · rw [if_pos h2]
        refine Date.le_trans ?_ (ffBumpGo_ge 7 start start.toOrdinal _)
        show cursor.toOrdinal ≤ (cursor.addDays _).toOrdinal
        rw [Date.toOrdinal_addDays]; omega
      · rw [if_neg h2]
        by_cases h3 : e.recurrence_pattern = "biweekly"
        · rw [if_pos h3]
          refine Date.le_trans ?_ (ffBumpGo_ge 14 start start.toOrdinal _)
          show cursor.toOrdinal ≤ (cursor.addDays _).toOrdinal
          rw [Date.toOrdinal_addDays]; omega
        · rw [if_neg h3]
          by_cases h4 : e.recurrence_pattern = "monthly"
          · rw [if_pos h4]
            by_cases h5 : ((start.year : Int) - (cursor.year : Int)) * 12 +
                ((start.month : Int) - (cursor.month : Int)) ≤ 0
            · rw [if_pos h5]; exact Nat.le_refl _
            · rw [if_neg h5]
              refine Date.le_trans ?_ (ffMonthlyGo_ge start start.toOrdinal _)
              have hv := cursor.valid
              have hidx := addMonthsPair_index
                (((start.year : Int) - (cursor.year : Int)) * 12 +
                  ((start.month : Int) - (cursor.month : Int))).toNat
                cursor.year cursor.month hv.2.1 hv.2.2.1
              have hb := addMonthsPair_bounds
                (((start.year : Int) - (cursor.year : Int)) * 12 +
                  ((start.month : Int) - (cursor.month : Int))).toNat
                cursor.year cursor.month hv.1 hv.2.1 hv.2.2.1
              exact cursor_le_clamped_ord cursor
                (addMonthsPair (cursor.year, cursor.month)
                  (((start.year : Int) - (cursor.year : Int)) * 12 +
                    ((start.month : Int) - (cursor.month : Int))).toNat).1
                (addMonthsPair (cursor.year, cursor.month)
                  (((start.year : Int) - (cursor.year : Int)) * 12 +
                    ((start.month : Int) - (cursor.month : Int))).toNat).2
                hb.2.1 hb.2.2 (by omega)
          · rw [if_neg h4]; exact Nat.le_refl _

theorem Event.start_date_le_firstRecurrenceCursor (e : Event) :
    e.start_date ≤ e.firstRecurrenceCursor := by
  unfold Event.firstRecurrenceCursor
  cases e.recurrence_weekday with
  | none => exact Nat.le_refl _
  | some w =>
    show e.start_date ≤
      (if e.recurrence_pattern = "weekly" ∨ e.recurrence_pattern = "biweekly" then
        e.start_date.addDays ((((w : Int) - (e.start_date.weekday : Int)) % 7).toNat)
      else e.start_date)
    by_cases hp : e.recurrence_pattern = "weekly" ∨ e.recurrence_pattern = "biweekly"
    · rw [if_pos hp]
      show e.start_date.toOrdinal ≤ (e.start_date.addDays _).toOrdinal
      rw [Date.toOrdinal_addDays]; omega
    · rw [if_neg hp]; exact Nat.le_refl _

theorem Event.withinUntil_le (e : Event) (c : Date) (h : e.withinUntil c = true) :
    ∀ u, e.recurrence_until = some u → c ≤ u := by
  intro u hu
  unfold Event.withinUntil at h
  rw [hu] at h
  exact of_decide_eq_true h

/-- C3 (confirmed): every row created by `generate_occurrences` over an
explicit window `[s, en]` is dated within
`[max(s, start_date), min(en, recurrence_until)]` when `recurrence_until` is
set, and within `[max(s, start_date), en]` when it is not; rows already in the
table are the only other rows of the result. -/
theorem generateOccurrences_dates_in_window (e : Event) (s en : Date) (rep : Bool)
    (occs : List Occurrence)
    (hp : e.recurrence_pattern = "daily" ∨ e.recurrence_pattern = "weekly" ∨
      e.recurrence_pattern = "biweekly" ∨ e.recurrence_pattern = "monthly") :
    ∀ o ∈ (e.generateOccurrences (some s) (some en) rep occs).2,
      o ∈ occs ∨
        (s ≤ o.occurrence_date ∧ e.start_date ≤ o.occurrence_date ∧
          o.occurrence_date ≤ en ∧
          ∀ u, e.recurrence_until = some u → o.occurrence_date ≤ u) := by
  intro o ho
  cases hr : e.is_recurring
  · rw [generateOccurrences_not_recurring_eq e _ _ rep occs hr] at ho
    exact Or.inl ho
  · rw [generateOccurrences_unfold e _ _ rep occs hr] at ho
    by_cases hlt : (some en).getD (e.recurrence_until.getD (e.end_date.getD e.start_date)) <
        (some s).getD e.start_date
    · rw [if_pos hlt] at ho
      exact Or.inl ho
    · rw [if_neg hlt] at ho
      obtain ⟨new, heq, hprops⟩ := genGo_spec e ((some s).getD e.start_date)
        ((some en).getD (e.recurrence_until.getD (e.end_date.getD e.start_date)))
        (((some en).getD (e.recurrence_until.getD (e.end_date.getD e.start_date))).toOrdinal + 1)
        (some (e.fastForwardCursor e.firstRecurrenceCursor ((some s).getD e.start_date))) 0
        (if rep then
          occs.filter (fun o =>
            !(decide ((some s).getD e.start_date ≤ o.occurrence_date) &&
              decide (o.occurrence_date ≤
                (some en).getD (e.recurrence_until.getD (e.end_date.getD e.start_date)))))
        else occs)
      rw [heq] at ho
      rcases List.mem_append.mp ho with hin | hnew
      · left
        by_cases hrep : rep = true
        · rw [if_pos hrep] at hin
          exact (List.mem_filter.mp hin).1
        · rw [if_neg hrep] at hin
          exact hin
      · right
        obtain ⟨_, _, _, _, _, p6, p7, p8, p9⟩ := hprops o hnew
        refine ⟨p6, ?_, p7, e.withinUntil_le o.occurrence_date p8⟩
        refine Date.le_trans e.start_date_le_firstRecurrenceCursor ?_
        refine Date.le_trans (e.le_fastForwardCursor e.firstRecurrenceCursor s) ?_
        exact p9 _ rfl

theorem generateOccurrences_dates_in_window_witness :
    Occurrence.mk (dateOne.addDays 1) 0 none none false "" ∈
        (sampleDaily.generateOccurrences (some (dateOne.addDays 1))
          (some (dateOne.addDays 3)) false []).2 ∧
      (Occurrence.mk (dateOne.addDays 1) 0 none none false "" ∈ ([] : List Occurrence) ∨
        (dateOne.addDays 1 ≤
            (Occurrence.mk (dateOne.addDays 1) 0 none none false "").occurrence_date ∧
          sampleDaily.start_date ≤
            (Occurrence.mk (dateOne.addDays 1) 0 none none false "").occurrence_date ∧
          (Occurrence.mk (dateOne.addDays 1) 0 none none false "").occurrence_date ≤
            dateOne.addDays 3 ∧
          ∀ u, sampleDaily.recurrence_until = some u →
            (Occurrence.mk (dateOne.addDays 1) 0 none none false "").occurrence_date ≤ u)) :=
  ⟨by decide,
   generateOccurrences_dates_in_window sampleDaily (dateOne.addDays 1) (dateOne.addDays 3)
     false [] (Or.inl rfl) (Occurrence.mk (dateOne.addDays 1) 0 none none false "")
     (by decide)⟩

/-- `n`-fold application of `_next_occurrence_date` (as an `Option`-valued
cursor chain): the dates the naive iteration passes through. -/
def iterNext (e : Event) : Nat → Option Date → Option Date
  | 0, cur => cur
  | n + 1, cur =>
    match cur with
    | none => none
    | some c => iterNext e n (e.nextOccurrenceDate c)

theorem iterNext_none (e : Event) : ∀ n, iterNext e n none = none := by
  intro n
  cases n <;> rfl

theorem iterNext_le (e : Event) :
    ∀ (n : Nat) (c d : Date), iterNext e n (some c) = some d → c ≤ d := by
  intro n
  induction n with
  | zero =>
    intro c d h
    exact (Option.some.inj h) ▸ Nat.le_refl _
  | succ k ih =>
    intro c d h
    have hstep : iterNext e (k + 1) (some c) = iterNext e k (e.nextOccurrenceDate c) := rfl
    rw [hstep] at h
    cases hnc : e.nextOccurrenceDate c with
    | none =>
      rw [hnc, iterNext_none] at h
      exact Option.noConfusion h
    | some c' =>
      rw [hnc] at h
      exact Date.le_trans (Date.le_of_lt (e.nextOccurrenceDate_lt c c' hnc)) (ih c' d h)

/-- After a run of the generation loop with enough fuel, every retained
reachable cursor date has a row in the resulting table. -/
theorem genGo_complete (e : Event) (start endD : Date) :
    ∀ (fuel : Nat) (cur : Option Date) (created : Nat) (occs : List Occurrence),
      (match cur with
       | none => 0
       | some c => endD.toOrdinal + 1 - c.toOrdinal) ≤ fuel →
      ∀ (n : Nat) (c : Date), iterNext e n cur = some c → start ≤ c → c ≤ endD →
        e.withinUntil c = true →
        ∃ o ∈ (genGo e start endD fuel cur created occs).2, o.occurrence_date = c := by
  intro fuel
  induction fuel with
  | zero =>
    intro cur created occs hfuel n c hreach hs hend huntil
    cases cur with
    | none => rw [iterNext_none] at hreach; exact Option.noConfusion hreach
    | some c0 =>
      have hc0 : c0 ≤ c := iterNext_le e n c0 c hreach
      have hfuel2 : endD.toOrdinal + 1 - c0.toOrdinal ≤ 0 := hfuel
      have : c0.toOrdinal ≥ endD.toOrdinal + 1 := by omega
      exact absurd (Date.le_trans hc0 hend) (by
        rw [Date.le_def]
        omega)
  | succ f ih =>
    intro cur created occs hfuel n c hreach hs hend huntil
    cases cur with
    | none => rw [iterNext_none] at hreach; exact Option.noConfusion hreach
    | some c0 =>
      by_cases hend0 : c0 ≤ endD
      swap
      · have hc0 : c0 ≤ c := iterNext_le e n c0 c hreach
        rw [Date.not_le] at hend0
        exact absurd (Date.le_trans hc0 hend) (by
          rw [Date.le_def]
          rw [Date.lt_def] at hend0
          omega)
      · have hunf : genGo e start endD (f + 1) (some c0) created occs =
            if c0 ≤ endD then
              if start ≤ c0 ∧ e.withinUntil c0 = true then
                if occs.any (fun o => o.occurrence_date == c0) = true then
                  genGo e start endD f (e.nextOccurrenceDate c0) created occs
                else
                  genGo e start endD f (e.nextOccurrenceDate c0) (created + 1)
                    (occs ++ [⟨c0, e.start_time, e.end_time, none, false, ""⟩])
              else
                genGo e start endD f (e.nextOccurrenceDate c0) created occs
            else (created, occs) := rfl
        rw [hunf, if_pos hend0]
        have hfuel2 : endD.toOrdinal + 1 - c0.toOrdinal ≤ f + 1 := hfuel
        have hmeas : ∀ cur', cur' = e.nextOccurrenceDate c0 →
            (match cur' with
             | none => 0
             | some c1 => endD.toOrdinal + 1 - c1.toOrdinal) ≤ f := by
          intro cur' hcur'
          cases hnc : cur' with
          | none => exact Nat.zero_le f
          | some c1 =>
            have hlt : c0 < c1 := e.nextOccurrenceDate_lt c0 c1 (by rw [← hcur', hnc])
            rw [Date.lt_def] at hlt
            show endD.toOrdinal + 1 - c1.toOrdinal ≤ f
            omega
        cases n with
        | zero =>
          have hc : c0 = c := Option.some.inj hreach
          subst hc
          rw [if_pos ⟨hs, huntil⟩]
          by_cases hins : occs.any (fun o => o.occurrence_date == c0) = true
          · rw [if_pos hins]
            obtain ⟨o, hom, hoe⟩ := List.any_eq_true.mp hins
            obtain ⟨new, heq, _⟩ := genGo_spec e start endD f
              (e.nextOccurrenceDate c0) created occs
            rw [heq]
            exact ⟨o, List.mem_append_left _ hom, beq_iff_eq.mp hoe⟩
          · rw [if_neg hins]
            obtain ⟨new, heq, _⟩ := genGo_spec e start endD f (e.nextOccurrenceDate c0)
              (created + 1) (occs ++ [⟨c0, e.start_time, e.end_time, none, false, ""⟩])
            rw [heq]
            refine ⟨⟨c0, e.start_time, e.end_time, none, false, ""⟩, ?_, rfl⟩
            exact List.mem_append_left _ (List.mem_append_right _ (List.mem_singleton.mpr rfl))
        | succ m =>
          have hreach' : iterNext e m (e.nextOccurrenceDate c0) = some c := hreach
          by_cases hret : start ≤ c0 ∧ e.withinUntil c0 = true
          · rw [if_pos hret]
            by_cases hins : occs.any (fun o => o.occurrence_date == c0) = true
            · rw [if_pos hins]
              exact ih (e.nextOccurrenceDate c0) created occs (hmeas _ rfl) m c hreach' hs
                hend huntil
            · rw [if_neg hins]
              exact ih (e.nextOccurrenceDate c0) (created + 1)
                (occs ++ [⟨c0, e.start_time, e.end_time, none, false, ""⟩]) (hmeas _ rfl)
                m c hreach' hs hend huntil
          · rw [if_neg hret]
            exact ih (e.nextOccurrenceDate c0) created occs (hmeas _ rfl) m c hreach' hs
              hend huntil

/-- If every retained reachable cursor date already has a row, the generation
loop inserts nothing and returns the table unchanged. -/
theorem genGo_no_create (e : Event) (start endD : Date) :
    ∀ (fuel : Nat) (cur : Option Date) (created : Nat) (occs : List Occurrence),
      (∀ (n : Nat) (c : Date), iterNext e n cur = some c → start ≤ c → c ≤ endD →
        e.withinUntil c = true → ∃ o ∈ occs, o.occurrence_date = c) →
      genGo e start endD fuel cur created occs = (created, occs) := by
  intro fuel
  induction fuel with
  | zero =>
    intro cur created occs _
    rfl
  | succ f ih =>
    intro cur created occs hpresent
    cases cur with
    | none => rfl
    | some c0 =>
      have hunf : genGo e start endD (f + 1) (some c0) created occs =
          if c0 ≤ endD then
            if start ≤ c0 ∧ e.withinUntil c0 = true then
              if occs.any (fun o => o.occurrence_date == c0) = true then
                genGo e start endD f (e.nextOccurrenceDate c0) created occs
              else
                genGo e start endD f (e.nextOccurrenceDate c0) (created + 1)
                  (occs ++ [⟨c0, e.start_time, e.end_time, none, false, ""⟩])
            else
              genGo e start endD f (e.nextOccurrenceDate c0) created occs
          else (created, occs) := rfl
      rw [hunf]
      have hshift : ∀ (n : Nat) (c : Date),
          iterNext e n (e.nextOccurrenceDate c0) = some c → start ≤ c → c ≤ endD →
          e.withinUntil c = true → ∃ o ∈ occs, o.occurrence_date = c := by
        intro n c hreach hs hend huntil
        exact hpresent (n + 1) c hreach hs hend huntil
      by_cases hend0 : c0 ≤ endD
      swap
      · rw [if_neg hend0]
      · rw [if_pos hend0]
        by_cases hret : start ≤ c0 ∧ e.withinUntil c0 = true
        · rw [if_pos hret]
          have hpres0 : ∃ o ∈ occs, o.occurrence_date = c0 :=
            hpresent 0 c0 rfl hret.1 hend0 hret.2
          have hins : occs.any (fun o => o.occurrence_date == c0) = true := by
            obtain ⟨o, hom, hoe⟩ := hpres0
            exact List.any_eq_true.mpr ⟨o, hom, beq_iff_eq.mpr hoe⟩
          rw [if_pos hins]
          exact ih (e.nextOccurrenceDate c0) created occs hshift
        · rw [if_neg hret]
          exact ih (e.nextOccurrenceDate c0) created occs hshift

/-- C4 (confirmed): running `generate_occurrences` twice with the same window
and `replace_existing = False` leaves the table exactly as after the first run
(in particular the set of occurrence dates is the same) and the second call's
created count is 0. -/
theorem generateOccurrences_idempotent (e : Event) (rs re : Option Date)
    (occs : List Occurrence) :
    (e.generateOccurrences rs re false (e.generateOccurrences rs re false occs).2).1 = 0 ∧
      (e.generateOccurrences rs re false (e.generateOccurrences rs re false occs).2).2 =
        (e.generateOccurrences rs re false occs).2 := by
  cases hr : e.is_recurring
  · rw [generateOccurrences_not_recurring_eq e rs re false occs hr]
    rw [generateOccurrences_not_recurring_eq e rs re false (0, occs).2 hr]
    exact ⟨rfl, rfl⟩
  · by_cases hlt : re.getD (e.recurrence_until.getD (e.end_date.getD e.start_date)) <
        rs.getD e.start_date
    · have hfix : e.generateOccurrences rs re false occs = (0, occs) := by
        rw [generateOccurrences_unfold e rs re false occs hr, if_pos hlt]
      rw [hfix]
      have hfix2 : e.generateOccurrences rs re false (0, occs).2 = (0, (0, occs).2) := by
        rw [generateOccurrences_unfold e rs re false (0, occs).2 hr, if_pos hlt]
      rw [hfix2]
      exact ⟨rfl, rfl⟩
    · have h1 := generateOccurrences_unfold e rs re false occs hr
      rw [if_neg hlt] at h1
      rw [if_neg Bool.false_ne_true] at h1
      have hcomplete := genGo_complete e (rs.getD e.start_date)
        (re.getD (e.recurrence_until.getD (e.end_date.getD e.start_date)))
        ((re.getD (e.recurrence_until.getD (e.end_date.getD e.start_date))).toOrdinal + 1)
        (some (e.fastForwardCursor e.firstRecurrenceCursor (rs.getD e.start_date))) 0 occs
        (by
          have hpos := (e.fastForwardCursor e.firstRecurrenceCursor
            (rs.getD e.start_date)).toOrdinal_pos
          simp only
          omega)
      have h2 := generateOccurrences_unfold e rs re false
        (e.generateOccurrences rs re false occs).2 hr
      rw [if_neg hlt] at h2
      rw [if_neg Bool.false_ne_true] at h2
      have hnone := genGo_no_create e (rs.getD e.start_date)
        (re.getD (e.recurrence_until.getD (e.end_date.getD e.start_date)))
        ((re.getD (e.recurrence_until.getD (e.end_date.getD e.start_date))).toOrdinal + 1)
        (some (e.fastForwardCursor e.firstRecurrenceCursor (rs.getD e.start_date))) 0
        (e.generateOccurrences rs re false occs).2
        (by
          intro n c hreach hs hend huntil
          have := hcomplete n c hreach hs hend huntil
          rw [h1]
          exact this)
      rw [h2, hnone]
      exact ⟨rfl, rfl⟩

theorem cursorSeqGo_none (e : Event) (endD : Date) (fuel : Nat) :
    cursorSeqGo e endD fuel none = [] := by
  cases fuel <;> rfl

/-- Two sufficient fuel bounds run the cursor enumeration identically. -/
theorem cursorSeqGo_congr (e : Event) (endD : Date) :
    ∀ (fuel fuel' : Nat) (c : Date),
      endD.toOrdinal + 1 - c.toOrdinal < fuel →
      endD.toOrdinal + 1 - c.toOrdinal < fuel' →
      cursorSeqGo e endD fuel (some c) = cursorSeqGo e endD fuel' (some c) := by
  intro fuel
  induction fuel with
  | zero => intro fuel' c h _; omega
  | succ f ih =>
    intro fuel' c h h'
    cases fuel' with
    | zero => omega
    | succ f' =>
      show (if c ≤ endD then c :: cursorSeqGo e endD f (e.nextOccurrenceDate c) else []) =
        (if c ≤ endD then c :: cursorSeqGo e endD f' (e.nextOccurrenceDate c) else [])
      by_cases hend : c ≤ endD
      · rw [if_pos hend, if_pos hend]
        cases hnc : e.nextOccurrenceDate c with
        | none => rw [cursorSeqGo_none, cursorSeqGo_none]
        | some c1 =>
          have hlt := e.nextOccurrenceDate_lt c c1 hnc
          rw [Date.lt_def] at hlt
          have hend2 : c.toOrdinal ≤ endD.toOrdinal := hend
          rw [ih f' c1 (by omega) (by omega)]
      · rw [if_neg hend, if_neg hend]

theorem cursorSeqGo_le_endD (e : Event) (endD : Date) :
    ∀ (fuel : Nat) (cur : Option Date) (d : Date),
      d ∈ cursorSeqGo e endD fuel cur → d ≤ endD := by
  intro fuel
  induction fuel with
  | zero =>
    intro cur d h
    cases cur with
    | none => rw [cursorSeqGo_none] at h; exact absurd h (List.not_mem_nil d)
    | some c => exact absurd h (List.not_mem_nil d)
  | succ f ih =>
    intro cur d h
    cases cur with
    | none => rw [cursorSeqGo_none] at h; exact absurd h (List.not_mem_nil d)
    | some c =>
      have hunf : cursorSeqGo e endD (f + 1) (some c) =
          if c ≤ endD then c :: cursorSeqGo e endD f (e.nextOccurrenceDate c) else [] := rfl
      rw [hunf] at h
      by_cases hend : c ≤ endD
      · rw [if_pos hend] at h
        rcases List.mem_cons.mp h with rfl | h'
        · exact hend
        · exact ih (e.nextOccurrenceDate c) d h'
      · rw [if_neg hend] at h
        exact absurd h (List.not_mem_nil d)

/-- The skipped prefix below `start` is invisible to the retained filter: the
window-filtered naive enumeration from a cursor equals the one from any
forward iterate of it, provided every skipped date lies below `start`. -/
theorem cursorSeqGo_skip (e : Event) (start endD : Date) (p : Date → Bool)
    (hp : ∀ d, d < start → p d = false) (hse : start ≤ endD) :
    ∀ (k : Nat) (c ff : Date), iterNext e k (some c) = some ff →
      (∀ (j : Nat) (d : Date), j < k → iterNext e j (some c) = some d → d < start) →
      ∀ fuel, endD.toOrdinal + 1 - c.toOrdinal < fuel →
      (cursorSeqGo e endD fuel (some c)).filter p =
        (cursorSeqGo e endD (endD.toOrdinal + 1) (some ff)).filter p := by
  intro k
  induction k with
  | zero =>
    intro c ff hreach hskip fuel hfuel
    have hcf : c = ff := Option.some.inj hreach
    subst hcf
    rw [cursorSeqGo_congr e endD fuel (endD.toOrdinal + 1) c hfuel
      (by have := c.toOrdinal_pos; omega)]
  | succ m ih =>
    intro c ff hreach hskip fuel hfuel
    have hc_lt : c < start := hskip 0 c (by omega) rfl
    have hc_end : c ≤ endD := Date.le_trans (Date.le_of_lt hc_lt) hse
    have hreach' : iterNext e m (e.nextOccurrenceDate c) = some ff := hreach
    cases hnc : e.nextOccurrenceDate c with
    | none =>
      rw [hnc, iterNext_none] at hreach'
      exact Option.noConfusion hreach'
    | some c1 =>
      rw [hnc] at hreach'
      have hlt := e.nextOccurrenceDate_lt c c1 hnc
      cases fuel with
      | zero => omega
      | succ f =>
        have hunf : cursorSeqGo e endD (f + 1) (some c) =
            if c ≤ endD then c :: cursorSeqGo e endD f (e.nextOccurrenceDate c) else [] := rfl
        rw [hunf, if_pos hc_end, List.filter_cons, hp c hc_lt]
        simp only [Bool.false_eq_true, if_false]
        rw [hnc]
        refine ih c1 ff hreach' ?_ f ?_
        · intro j d hj hiter
          refine hskip (j + 1) d (by omega) ?_
          show iterNext e j (e.nextOccurrenceDate c) = some d
          rw [hnc]
          exact hiter
        · rw [Date.lt_def] at hlt
          have hc_end2 : c.toOrdinal ≤ endD.toOrdinal := hc_end
          omega

/-- When every successor step adds a fixed number of days, the naive cursor
chain is day-count arithmetic. -/
theorem iterNext_step_addDays (e : Event) (step : Nat)
    (hstep : ∀ c : Date, e.nextOccurrenceDate c = some (c.addDays step)) :
    ∀ (n : Nat) (c : Date), iterNext e n (some c) = some (c.addDays (step * n)) := by
  intro n
  induction n with
  | zero =>
    intro c
    show (some c : Option Date) = some (c.addDays (step * 0))
    rw [Nat.mul_zero]
    rfl
  | succ m ih =>
    intro c
    show iterNext e m (e.nextOccurrenceDate c) = some (c.addDays (step * (m + 1)))
    rw [hstep c, ih (c.addDays step), Date.addDays_addDays,
      show step + step * m = step * (m + 1) by ring]

/-- Specification of the step-correction `while` loop: its result is a whole
number of steps ahead of its input, every intermediate multiple was below
`start`, and the result is not below `start` (given sufficient fuel). -/
theorem ffBumpGo_spec (step : Nat) (hstep : 1 ≤ step) (start : Date) :
    ∀ (fuel : Nat) (c : Date), start.toOrdinal ≤ c.toOrdinal + step * fuel →
      ∃ n, ffBumpGo step start fuel c = c.addDays (step * n) ∧
        (∀ j < n, c.addDays (step * j) < start) ∧
        ¬ ffBumpGo step start fuel c < start := by
  intro fuel
  induction fuel with
  | zero =>
    intro c hfuel
    refine ⟨0, by rw [Nat.mul_zero]; rfl, by omega, ?_⟩
    show ¬ (c : Date) < start
    rw [Date.not_lt, Date.le_def]
    omega
  | succ f ih =>
    intro c hfuel
    have hunf : ffBumpGo step start (f + 1) c =
        if c < start then ffBumpGo step start f (c.addDays step) else c := rfl
    by_cases hc : c < start
    · rw [hunf, if_pos hc]
      obtain ⟨n, heq, hskip, hge⟩ := ih (c.addDays step) (by
        rw [Date.toOrdinal_addDays]
        have hmul : step * (f + 1) = step * f + step := by ring
        omega)
      refine ⟨n + 1, ?_, ?_, ?_⟩
      · rw [heq, Date.addDays_addDays, show step + step * n = step * (n + 1) by ring]
      · intro j hj
        cases j with
        | zero =>
          show c.addDays (step * 0) < start
          rw [Nat.mul_zero]
          exact hc
        | succ i =>
          have := hskip i (by omega)
          rw [Date.addDays_addDays, show step + step * i = step * (i + 1) by ring] at this
          exact this
      · exact hge
    · rw [hunf, if_neg hc]
      exact ⟨0, by rw [Nat.mul_zero]; rfl, by omega, hc⟩

/-- The dates of the rows produced by the generation loop are exactly the
window-and-until-filtered cursor enumeration, appended to the dates already in
the table (provided all existing rows are dated before the cursor). -/
theorem genGo_dates (e : Event) (start endD : Date) :
    ∀ (fuel : Nat) (cur : Option Date) (created : Nat) (occs : List Occurrence),
      (∀ o ∈ occs, ∀ c0, cur = some c0 → o.occurrence_date < c0) →
      (genGo e start endD fuel cur created occs).2.map (fun o => o.occurrence_date) =
        occs.map (fun o => o.occurrence_date) ++
          (cursorSeqGo e endD fuel cur).filter
            (fun d => decide (start ≤ d) && e.withinUntil d) := by
  intro fuel
  induction fuel with
  | zero =>
    intro cur created occs _
    show occs.map _ = occs.map _ ++ ([] : List Date).filter _
    simp
  | succ f ih =>
    intro cur created occs hinv
    cases cur with
    | none =>
      show occs.map _ = occs.map _ ++ ([] : List Date).filter _
      simp
    | some c =>
      have hunfg : genGo e start endD (f + 1) (some c) created occs =
          if c ≤ endD then
            if start ≤ c ∧ e.withinUntil c = true then
              if occs.any (fun o => o.occurrence_date == c) = true then
                genGo e start endD f (e.nextOccurrenceDate c) created occs
              else
                genGo e start endD f (e.nextOccurrenceDate c) (created + 1)
                  (occs ++ [⟨c, e.start_time, e.end_time, none, false, ""⟩])
            else
              genGo e start endD f (e.nextOccurrenceDate c) created occs
          else (created, occs) := rfl
      have hunfs : cursorSeqGo e endD (f + 1) (some c) =
          if c ≤ endD then c :: cursorSeqGo e endD f (e.nextOccurrenceDate c) else [] := rfl
      rw [hunfg, hunfs]
      have hnextinv : ∀ o ∈ occs, ∀ c1, e.nextOccurrenceDate c = some c1 →
          o.occurrence_date < c1 := by
        intro o ho c1 hnc
        exact Date.lt_of_lt_of_le (hinv o ho c (rfl))
          (Date.le_of_lt (e.nextOccurrenceDate_lt c c1 hnc))
      by_cases hend : c ≤ endD
      swap
      · rw [if_neg hend, if_neg hend]
        simp
      rw [if_pos hend, if_pos hend, List.filter_cons]
      by_cases hret : start ≤ c ∧ e.withinUntil c = true
      · rw [if_pos hret]
        have hcond : (decide (start ≤ c) && e.withinUntil c) = true := by
          rw [decide_eq_true hret.1, hret.2]
          rfl
        rw [hcond]
        have hins : occs.any (fun o => o.occurrence_date == c) = false := by
          rw [← Bool.not_eq_true]
          intro hany
          obtain ⟨o, hom, hoe⟩ := List.any_eq_true.mp hany
          have := hinv o hom c rfl
          rw [beq_iff_eq.mp hoe] at this
          rw [Date.lt_def] at this
          omega
        rw [hins]
        simp only [Bool.false_eq_true, if_false, if_true]
        have hih := ih (e.nextOccurrenceDate c) (created + 1)
          (occs ++ [⟨c, e.start_time, e.end_time, none, false, ""⟩]) (by
            intro o ho c1 hnc
            rcases List.mem_append.mp ho with ho' | ho'
            · exact hnextinv o ho' c1 hnc
            · rw [List.mem_singleton.mp ho']
              exact e.nextOccurrenceDate_lt c c1 hnc)
        rw [hih, List.map_append]
        simp
      · rw [if_neg hret]
        have hcond : (decide (start ≤ c) && e.withinUntil c) = false := by
          by_cases hs : start ≤ c
          · have hu : e.withinUntil c = false := by
              rw [← Bool.not_eq_true]
              intro hu'
              exact hret ⟨hs, hu'⟩
            rw [hu, Bool.and_false]
          · rw [decide_eq_false hs, Bool.false_and]
        rw [hcond]
        simp only [Bool.false_eq_true, if_false]
        exact ih (e.nextOccurrenceDate c) created occs hnextinv

/-- For a fixed-step pattern, the corrected fast-forward jump lands on a naive
iterate of the cursor and every iterate it skipped was below `start`. -/
theorem ff_reach_step (e : Event) (step : Nat) (hstep1 : 1 ≤ step) (c s : Date)
    (hclt : c < s)
    (hstep : ∀ d : Date, e.nextOccurrenceDate d = some (d.addDays step))
    (hff : e.fastForwardCursor c s =
      ffBumpGo step s s.toOrdinal (c.addDays ((s.toOrdinal - c.toOrdinal) / step * step))) :
    ∃ k, iterNext e k (some c) = some (e.fastForwardCursor c s) ∧
      ∀ (j : Nat) (d : Date), j < k → iterNext e j (some c) = some d → d < s := by
  obtain ⟨n, hbump, hskipb, _⟩ := ffBumpGo_spec step hstep1 s s.toOrdinal
    (c.addDays ((s.toOrdinal - c.toOrdinal) / step * step)) (by
      rw [Date.toOrdinal_addDays]
      have hpos := c.toOrdinal_pos
      have hge : step * s.toOrdinal ≥ 1 * s.toOrdinal := Nat.mul_le_mul_right _ hstep1
      omega)
  refine ⟨(s.toOrdinal - c.toOrdinal) / step + n, ?_, ?_⟩
  · rw [iterNext_step_addDays e step hstep, hff, hbump, Date.addDays_addDays]
    rw [show step * ((s.toOrdinal - c.toOrdinal) / step + n) =
      (s.toOrdinal - c.toOrdinal) / step * step + step * n by ring]
  · intro j d hj hiter
    rw [iterNext_step_addDays e step hstep] at hiter
    have hd : d = c.addDays (step * j) := (Option.some.inj hiter).symm
    subst hd
    by_cases hjlow : j < (s.toOrdinal - c.toOrdinal) / step
    · rw [Date.lt_def, Date.toOrdinal_addDays]
      rw [Date.lt_def] at hclt
      have h7 : (s.toOrdinal - c.toOrdinal) / step * step ≤ s.toOrdinal - c.toOrdinal :=
        Nat.div_mul_le_self _ _
      have hj7 : step * j + step ≤ (s.toOrdinal - c.toOrdinal) / step * step := by
        have h1 : j + 1 ≤ (s.toOrdinal - c.toOrdinal) / step := hjlow
        have h2 : step * (j + 1) ≤ step * ((s.toOrdinal - c.toOrdinal) / step) :=
          Nat.mul_le_mul_left _ h1
        have h3 : step * (j + 1) = step * j + step := by ring
        have h4 : step * ((s.toOrdinal - c.toOrdinal) / step) =
            (s.toOrdinal - c.toOrdinal) / step * step := by ring
        omega
      omega
    · obtain ⟨i, hji, hin⟩ : ∃ i, j = (s.toOrdinal - c.toOrdinal) / step + i ∧ i < n :=
        ⟨j - (s.toOrdinal - c.toOrdinal) / step, by omega, by omega⟩
      subst hji
      have hsk := hskipb i hin
      rw [Date.addDays_addDays] at hsk
      rw [show (s.toOrdinal - c.toOrdinal) / step * step + step * i =
        step * ((s.toOrdinal - c.toOrdinal) / step + i) by ring] at hsk
      exact hsk

/-- C1 (amended, equivalence part): for daily, weekly and biweekly rules, the
occurrence dates that `generate_occurrences` materialises over `[s, en]` via
the fast-forward cursor jump (run here on an empty table) are exactly the
dates that naive one-step iteration of `_next_occurrence_date` from the first
recurrence cursor retains in that window (and under the same
`recurrence_until` ceiling).  For monthly rules the corresponding equivalence
fails on the code: see `monthly_ff_not_equiv`. -/
theorem ff_equiv_step_patterns (e : Event) (s en : Date) (hr : e.is_recurring = true)
    (hp : e.recurrence_pattern = "daily" ∨ e.recurrence_pattern = "weekly" ∨
      e.recurrence_pattern = "biweekly") :
    (e.generateOccurrences (some s) (some en) false []).2.map (fun o => o.occurrence_date) =
      (e.naiveCursorSeq en).filter (fun d => decide (s ≤ d) && e.withinUntil d) := by
  have h1 := generateOccurrences_unfold e (some s) (some en) false [] hr
  rw [if_neg Bool.false_ne_true] at h1
  simp only [Option.getD_some] at h1
  by_cases hlt : en < s
  · rw [if_pos hlt] at h1
    rw [h1]
    show ([] : List Date) = _
    symm
    rw [List.filter_eq_nil_iff]
    intro d hd
    have hden : d ≤ en := cursorSeqGo_le_endD e en (en.toOrdinal + 1)
      (some e.firstRecurrenceCursor) d hd
    show ¬ (decide (s ≤ d) && e.withinUntil d) = true
    rw [decide_eq_false (show ¬ s ≤ d by
      rw [Date.not_le]
      exact Date.lt_of_le_of_lt hden hlt), Bool.false_and]
    exact Bool.false_ne_true
  · rw [if_neg hlt] at h1
    rw [h1]
    have hdates := genGo_dates e s en (en.toOrdinal + 1)
      (some (e.fastForwardCursor e.firstRecurrenceCursor s)) 0 []
      (by intro o ho; exact absurd ho (List.not_mem_nil o))
    rw [hdates]
    simp only [List.map_nil, List.nil_append]
    have hse : s ≤ en := Date.not_lt.mp hlt
    show _ = (cursorSeqGo e en (en.toOrdinal + 1) (some e.firstRecurrenceCursor)).filter _
    by_cases hcs : s ≤ e.firstRecurrenceCursor
    · have hffeq : e.fastForwardCursor e.firstRecurrenceCursor s = e.firstRecurrenceCursor := by
        unfold Event.fastForwardCursor
        rw [if_pos hcs]
      rw [hffeq]
    · have hclt : e.firstRecurrenceCursor < s := Date.not_le.mp hcs
      have hreach : ∃ k, iterNext e k (some e.firstRecurrenceCursor) =
          some (e.fastForwardCursor e.firstRecurrenceCursor s) ∧
          ∀ (j : Nat) (d : Date), j < k →
            iterNext e j (some e.firstRecurrenceCursor) = some d → d < s := by
        rcases hp with hpd | hpw | hpb
        · have hff : e.fastForwardCursor e.firstRecurrenceCursor s =
              e.firstRecurrenceCursor.addDays
                (s.toOrdinal - e.firstRecurrenceCursor.toOrdinal) := by
            unfold Event.fastForwardCursor
            rw [if_neg hcs, if_pos hpd]
          have hstep : ∀ d : Date, e.nextOccurrenceDate d = some (d.addDays 1) := by
            intro d
            unfold Event.nextOccurrenceDate
            rw [if_pos hpd]
          refine ⟨s.toOrdinal - e.firstRecurrenceCursor.toOrdinal, ?_, ?_⟩
          · rw [iterNext_step_addDays e 1 hstep, Nat.one_mul, hff]
          · intro j d hj hiter
            rw [iterNext_step_addDays e 1 hstep] at hiter
            have hd : d = e.firstRecurrenceCursor.addDays (1 * j) :=
              (Option.some.inj hiter).symm
            subst hd
            rw [Date.lt_def, Date.toOrdinal_addDays]
            rw [Date.lt_def] at hclt
            omega
        · have hff : e.fastForwardCursor e.firstRecurrenceCursor s =
              ffBumpGo 7 s s.toOrdinal
                (e.firstRecurrenceCursor.addDays
                  ((s.toOrdinal - e.firstRecurrenceCursor.toOrdinal) / 7 * 7)) := by
            unfold Event.fastForwardCursor
            rw [if_neg hcs, if_neg (by rw [hpw]; decide), if_pos hpw]
          have hstep : ∀ d : Date, e.nextOccurrenceDate d = some (d.addDays 7) := by
            intro d
            unfold Event.nextOccurrenceDate
            rw [if_neg (by rw [hpw]; decide), if_pos hpw]
          exact ff_reach_step e 7 (by omega) e.firstRecurrenceCursor s hclt hstep hff
        · have hff : e.fastForwardCursor e.firstRecurrenceCursor s =
              ffBumpGo 14 s s.toOrdinal
                (e.firstRecurrenceCursor.addDays
                  ((s.toOrdinal - e.firstRecurrenceCursor.toOrdinal) / 14 * 14)) := by
            unfold Event.fastForwardCursor
            rw [if_neg hcs, if_neg (by rw [hpb]; decide), if_neg (by rw [hpb]; decide),
              if_pos hpb]
          have hstep : ∀ d : Date, e.nextOccurrenceDate d = some (d.addDays 14) := by
            intro d
            unfold Event.nextOccurrenceDate
            rw [if_neg (by rw [hpb]; decide), if_neg (by rw [hpb]; decide), if_pos hpb]
          exact ff_reach_step e 14 (by omega) e.firstRecurrenceCursor s hclt hstep hff
      obtain ⟨k, hk1, hk2⟩ := hreach
      exact (cursorSeqGo_skip e s en (fun d => decide (s ≤ d) && e.withinUntil d)
        (by
          intro d hd
          show (decide (s ≤ d) && e.withinUntil d) = false
          rw [decide_eq_false (Date.not_le.mpr hd), Bool.false_and])
        hse k e.firstRecurrenceCursor _ hk1 hk2 (en.toOrdinal + 1)
        (by have := e.firstRecurrenceCursor.toOrdinal_pos; omega)).symm

theorem ff_equiv_step_patterns_witness :
    (sampleWeeklyWed.generateOccurrences (some (dateOne.addDays 10))
        (some (dateOne.addDays 24)) false []).2.map (fun o => o.occurrence_date) =
      (sampleWeeklyWed.naiveCursorSeq (dateOne.addDays 24)).filter
        (fun d => decide (dateOne.addDays 10 ≤ d) && sampleWeeklyWed.withinUntil d) :=
  ff_equiv_step_patterns sampleWeeklyWed (dateOne.addDays 10) (dateOne.addDays 24) rfl
    (Or.inr (Or.inl rfl))

/-- The monthly rule of the spec's own example, anchored on 2021-01-31. -/
def sampleMonthly31 : Event :=
  ⟨true, "monthly", none, none, ⟨2021, 1, 31, by decide⟩, none, 0, none⟩

/-- C1 (counterexample): for the monthly rule anchored on 2021-01-31 with
window [2024-06-01, 2024-06-30], `generate_occurrences` (via the fast-forward
jump, which clamps the original anchor day 31 to Jun 30) yields exactly
2024-06-30, while naive one-step iteration of `_next_occurrence_date` from the
first recurrence cursor retains exactly 2024-06-28 in that window (the sticky
clamp Jan 31 → Feb 28 makes every later occurrence fall on the 28th).  The
two sets differ, refuting the claimed equivalence for monthly rules. -/
theorem monthly_ff_not_equiv :
    (sampleMonthly31.generateOccurrences (some ⟨2024, 6, 1, by decide⟩)
        (some ⟨2024, 6, 30, by decide⟩) false []).2.map (fun o => o.occurrence_date) =
      [⟨2024, 6, 30, by decide⟩] ∧
    (sampleMonthly31.naiveCursorSeq ⟨2024, 6, 30, by decide⟩).filter
        (fun d => decide ((⟨2024, 6, 1, by decide⟩ : Date) ≤ d) &&
          sampleMonthly31.withinUntil d) = [⟨2024, 6, 28, by decide⟩] ∧
    (sampleMonthly31.generateOccurrences (some ⟨2024, 6, 1, by decide⟩)
        (some ⟨2024, 6, 30, by decide⟩) false []).2.map (fun o => o.occurrence_date) ≠
      (sampleMonthly31.naiveCursorSeq ⟨2024, 6, 30, by decide⟩).filter
        (fun d => decide ((⟨2024, 6, 1, by decide⟩ : Date) ≤ d) &&
          sampleMonthly31.withinUntil d) :=
  ⟨by decide, by decide, by decide⟩

/-! ### TOTP (`src/mfa/models.py`)

Bytes are `Nat`s below 256 in lists; 32-bit words are `Nat`s reduced mod
`2 ^ 32`.  `sha1`/`hmacSha1` model the `hashlib.sha1`/`hmac` primitives the
source calls (FIPS 180-1 / RFC 2104). -/

/-- Truncation to a 32-bit word. -/
def w32 (n : Nat) : Nat := n % 4294967296

/-- 32-bit left rotation (input assumed below `2 ^ 32`). -/
def rotl32 (b n : Nat) : Nat := w32 (n <<< b) ||| (n >>> (32 - b))

/-- Big-endian encoding of `n` into `k` bytes (`struct.pack` `>Q`/`>I`). -/
def be (k n : Nat) : List Nat :=
  (List.range k).map (fun i => (n >>> (8 * (k - 1 - i))) % 256)

/-- Big-endian read of a byte list (`struct.unpack ">I"`). -/
def beRead (l : List Nat) : Nat := l.foldl (fun a b => a * 256 + b) 0

/-- Group bytes into big-endian 32-bit words. -/
def bytesToWords : List Nat → List Nat
  | b0 :: b1 :: b2 :: b3 :: rest =>
    (((b0 * 256 + b1) * 256 + b2) * 256 + b3) :: bytesToWords rest
  | _ => []

def sha1K (t : Nat) : Nat :=
  if t < 20 then 0x5A827999 else if t < 40 then 0x6ED9EBA1
  else if t < 60 then 0x8F1BBCDC else 0xCA62C1D6

def sha1F (t b c d : Nat) : Nat :=
  if t < 20 then (b &&& c) ||| ((b ^^^ 0xFFFFFFFF) &&& d)
  else if t < 40 then b ^^^ c ^^^ d
  else if t < 60 then (b &&& c) ||| (b &&& d) ||| (c &&& d)
  else b ^^^ c ^^^ d

/-- Extend the 16 block words to the 80-word message schedule. -/
def sha1Extend (ws : List Nat) : Nat → List Nat
  | 0 => ws
  | n + 1 =>
    sha1Extend (ws ++ [rotl32 1 (ws.getD (ws.length - 3) 0 ^^^ ws.getD (ws.length - 8) 0 ^^^
      ws.getD (ws.length - 14) 0 ^^^ ws.getD (ws.length - 16) 0)]) n

/-- The SHA-1 compression function on one 64-byte block. -/
def sha1Compress (h : Nat × Nat × Nat × Nat × Nat) (block : List Nat) :
    Nat × Nat × Nat × Nat × Nat :=
  let ws := sha1Extend (bytesToWords block) 64
  let f := (List.range 80).foldl
    (fun st t =>
      let a := st.1
      let b := st.2.1
      let c := st.2.2.1
      let d := st.2.2.2.1
      let e := st.2.2.2.2
      (w32 (rotl32 5 a + sha1F t b c d + e + sha1K t + ws.getD t 0), a, rotl32 30 b, c, d)) h
  (w32 (h.1 + f.1), w32 (h.2.1 + f.2.1), w32 (h.2.2.1 + f.2.2.1),
    w32 (h.2.2.2.1 + f.2.2.2.1), w32 (h.2.2.2.2 + f.2.2.2.2))

/-- Split into 64-byte blocks (`fuel`-bounded; one byte of input per unit of
fuel is more than enough). -/
def chunksGo : Nat → List Nat → List (List Nat)
  | 0, _ => []
  | _ + 1, [] => []
  | n + 1, x :: xs => ((x :: xs).take 64) :: chunksGo n ((x :: xs).drop 64)

/-- SHA-1 padding: `0x80`, zeros to 56 mod 64, 8-byte big-endian bit length. -/
def sha1Pad (msg : List Nat) : List Nat :=
  msg ++ 0x80 :: (List.replicate ((119 - msg.length % 64) % 64) 0 ++ be 8 (8 * msg.length))

/-- SHA-1 of a byte list (FIPS 180-1), as `hashlib.sha1(..).digest()`. -/
def sha1 (msg : List Nat) : List Nat :=
  let padded := sha1Pad msg
  let hh := (chunksGo padded.length padded).foldl sha1Compress
    (0x67452301, 0xEFCDAB89, 0x98BADCFE, 0x10325476, 0xC3D2E1F0)
  be 4 hh.1 ++ be 4 hh.2.1 ++ be 4 hh.2.2.1 ++ be 4 hh.2.2.2.1 ++ be 4 hh.2.2.2.2

/-- HMAC-SHA1 (RFC 2104), as `hmac.new(key, msg, hashlib.sha1).digest()`. -/
def hmacSha1 (key msg : List Nat) : List Nat :=
  let k0 := if 64 < key.length then sha1 key else key
  let kp := k0 ++ List.replicate (64 - k0.length) 0
  sha1 ((kp.map (fun b => b ^^^ 0x5C)) ++ sha1 ((kp.map (fun b => b ^^^ 0x36)) ++ msg))

/-- Value of one base32 alphabet character (`A`–`Z` → 0–25, `2`–`7` → 26–31). -/
def b32Val (c : Char) : Option Nat :=
  if 'A' ≤ c ∧ c ≤ 'Z' then some (c.toNat - 65)
  else if '2' ≤ c ∧ c ≤ '7' then some (c.toNat - 24)
  else none

/-- `base64.b32decode` on a padded input: `none` on invalid length, stray
characters after `=`, impossible padding amounts, or non-alphabet characters;
otherwise the top `⌊5n/8⌋` bytes of the concatenated 5-bit groups. -/
def base32Decode (s : String) : Option (List Nat) :=
  if s.length % 8 ≠ 0 then none
  else
    let cs := s.toList.takeWhile (fun c => c != '=')
    if ¬ (s.toList.dropWhile (fun c => c != '=')).all (fun c => c == '=') then none
    else if cs.length % 8 = 1 ∨ cs.length % 8 = 3 ∨ cs.length % 8 = 6 then none
    else
      match cs.mapM b32Val with
      | none => none
      | some vs =>
        let nbits := 5 * vs.length
        let acc := vs.foldl (fun a v => a * 32 + v) 0
        some ((List.range (nbits / 8)).map (fun j => (acc >>> (nbits - 8 * (j + 1))) % 256))

/-- Left-pad with `'0'` to width `w` (Python `str.zfill` on digit strings). -/
def zfill (w : Nat) (s : String) : String :=
  String.mk (List.replicate (w - s.length) '0' ++ s.toList)

/-- `UserMFA._totp_code_for_counter`: base32-decode the secret (padded with
`=` to a multiple of 8), HMAC-SHA1 it over the big-endian 8-byte counter,
dynamically truncate and print `digits` decimal digits.  Python's
`struct.pack(">Q", counter)` raises outside `[0, 2^64)`; the embedding takes
the counter's value there (`toNat % 2 ^ 64`), and every theorem below stays in
the agreeing range.  A secret that is not valid base32 raises in Python; here
the result is `none`. -/
def totpCodeForCounter (secret : String) (digits : Nat) (counter : Int) : Option String :=
  match base32Decode (secret ++ String.mk (List.replicate ((8 - secret.length % 8) % 8) '=')) with
  | none => none
  | some key =>
    let msg := be 8 (counter.toNat % 2 ^ 64)
    let digest := hmacSha1 key msg
    let offset := digest.getD (digest.length - 1) 0 &&& 0x0F
    let binary := beRead ((digest.drop offset).take 4) &&& 0x7FFFFFFF
    some (zfill digits (toString (binary % 10 ^ digits)))

/-- The RFC 6238 / HMAC-SHA1 reference pipeline, written from the spec's
words: HMAC-SHA1 of the secret bytes over the big-endian 8-byte counter,
dynamic truncation using the low 4 bits of the digest's last byte as an
offset, the 4 bytes at that offset read as a big-endian integer with the top
bit masked off, reduced modulo `10 ^ 6` and zero-padded to 6 digits. -/
def rfc6238Code (key : List Nat) (counter : Int) : String :=
  let digest := hmacSha1 key (be 8 (counter.toNat % 2 ^ 64))
  let offset := digest.getD (digest.length - 1) 0 % 16
  let value := beRead ((digest.drop offset).take 4) % 2 ^ 31
  zfill 6 (toString (value % 10 ^ 6))

/-- The TOTP-relevant fields of `mfa.models.UserMFA`; timestamps are opaque
`Nat` codes (unix seconds). -/
structure UserMFA where
  secret : String
  is_enrolled : Bool
  last_verified_at : Option Nat

/-- `UserMFA.verify_totp`.  Python's `token.strip()` / `str.isdigit()` are
modelled by `String.trim` and an ASCII digit check: non-ASCII Unicode digits
pass Python's `isdigit` but can never equal the ASCII code string, so the
accept/reject behaviour coincides.  The current time is the explicit `now`. -/
def UserMFA.verifyTotp (p : UserMFA) (token : String) (validWindow : Nat) (now : Nat) :
    Bool × UserMFA :=
  if p.secret = "" then (false, p)
  else
    let tok := token.trim
    if ¬ (tok.toList ≠ [] ∧ tok.toList.all Char.isDigit) ∨ tok.length ≠ 6 then (false, p)
    else
      let interval := 30
      let counter : Int := (now / interval : Nat)
      if ((List.range (2 * validWindow + 1)).map (fun i => (i : Int) - (validWindow : Int))).any
          (fun off => totpCodeForCounter p.secret 6 (counter + off) == some tok) then
        (true, ⟨p.secret, p.is_enrolled, some now⟩)
      else (false, p)

theorem toDigitsCore_digits_aux :
    ∀ (fuel n : Nat) (acc : List Char), (∀ c ∈ acc, c.isDigit = true) →
      ∀ c ∈ Nat.toDigitsCore 10 fuel n acc, c.isDigit = true := by
  intro fuel
  induction fuel with
  | zero => intro n acc hacc c hc; exact hacc c hc
  | succ f ih =>
    intro n acc hacc c hc
    have hdig : (Nat.digitChar (n % 10)).isDigit = true :=
      (by decide : ∀ m, m < 10 → (Nat.digitChar m).isDigit = true) _
        (Nat.mod_lt _ (by omega))
    have hunf : Nat.toDigitsCore 10 (f + 1) n acc =
        if n / 10 = 0 then Nat.digitChar (n % 10) :: acc
        else Nat.toDigitsCore 10 f (n / 10) (Nat.digitChar (n % 10) :: acc) := rfl
    rw [hunf] at hc
    by_cases hdiv : n / 10 = 0
    · rw [if_pos hdiv] at hc
      rcases List.mem_cons.mp hc with rfl | hc'
      · exact hdig
      · exact hacc c hc'
    · rw [if_neg hdiv] at hc
      refine ih (n / 10) (Nat.digitChar (n % 10) :: acc) ?_ c hc
      intro c' hc'
      rcases List.mem_cons.mp hc' with rfl | hc''
      · exact hdig
      · exact hacc c' hc''

theorem repr_all_digits (n : Nat) : ∀ c ∈ (Nat.repr n).toList, c.isDigit = true := by
  intro c hc
  have hr : (Nat.repr n).toList = Nat.toDigitsCore 10 (n + 1) n [] := rfl
  rw [hr] at hc
  exact toDigitsCore_digits_aux (n + 1) n []
    (by intro c' hc'; exact absurd hc' (List.not_mem_nil c')) c hc

theorem zfill_toString_format (m : Nat) (hm : m < 10 ^ 6) :
    (zfill 6 (toString m)).length = 6 ∧
      (∀ c ∈ (zfill 6 (toString m)).toList, c.isDigit = true) ∧
      (zfill 6 (toString m)).toList ≠ [] := by
  have hlen : (toString m : String).length ≤ 6 := Nat.repr_length m 6 (by omega) hm
  have htl : (zfill 6 (toString m)).toList =
      List.replicate (6 - (toString m : String).length) '0' ++ (toString m : String).toList :=
    rfl
  have hlen6 : (zfill 6 (toString m)).length = 6 := by
    show (List.replicate (6 - (toString m : String).length) '0' ++
      (toString m : String).toList).length = 6
    rw [List.length_append, List.length_replicate]
    have h2 : (toString m : String).toList.length = (toString m : String).length := rfl
    omega
  refine ⟨hlen6, ?_, ?_⟩
  · intro c hc
    rw [htl] at hc
    rcases List.mem_append.mp hc with hc' | hc'
    · rw [List.eq_of_mem_replicate hc']
      decide
    · exact repr_all_digits m c hc'
  · intro hnil
    have h0 : (zfill 6 (toString m)).toList.length = 6 := hlen6
    rw [hnil] at h0
    exact absurd h0 (by decide)

theorem totpCodeForCounter_format (secret : String) (counter : Int) (s : String)
    (h : totpCodeForCounter secret 6 counter = some s) :
    s.length = 6 ∧ (∀ c ∈ s.toList, c.isDigit = true) ∧ s.toList ≠ [] := by
  unfold totpCodeForCounter at h
  cases hdec : base32Decode (secret ++ String.mk
      (List.replicate ((8 - secret.length % 8) % 8) '=')) with
  | none => rw [hdec] at h; exact Option.noConfusion h
  | some key =>
    simp only [hdec] at h
    have hx := Option.some.inj h
    rw [← hx]
    exact zfill_toString_format _ (Nat.mod_lt _ (by norm_num))

/-- C8 (confirmed): for every base32 secret (one Python's `b32decode` accepts)
and every counter, `_totp_code_for_counter` produces exactly the RFC 6238 /
HMAC-SHA1 reference value on the decoded secret bytes: dynamic truncation by
the low 4 bits of the digest's last byte, big-endian 31-bit read, mod `10^6`,
zero-padded to 6 digits. -/
theorem totp_matches_rfc6238 (secret : String) (counter : Int) (key : List Nat)
    (hkey : base32Decode (secret ++ String.mk
      (List.replicate ((8 - secret.length % 8) % 8) '=')) = some key) :
    totpCodeForCounter secret 6 counter = some (rfc6238Code key counter) := by
  have h15 : ∀ n : Nat, n &&& 0x0F = n % 16 := by
    intro n
    have h := Nat.and_pow_two_sub_one_eq_mod n 4
    norm_num at h
    exact h
  have h31 : ∀ n : Nat, n &&& 0x7FFFFFFF = n % 2 ^ 31 := by
    intro n
    have h := Nat.and_pow_two_sub_one_eq_mod n 31
    norm_num at h
    exact h
  unfold totpCodeForCounter rfc6238Code
  simp only [hkey, h15, h31]

theorem totp_matches_rfc6238_witness :
    totpCodeForCounter "GEZDGNBVGY3TQOJQGEZDGNBVGY3TQOJQ" 6 1 =
      some (rfc6238Code [49, 50, 51, 52, 53, 54, 55, 56, 57, 48,
        49, 50, 51, 52, 53, 54, 55, 56, 57, 48] 1) :=
  totp_matches_rfc6238 "GEZDGNBVGY3TQOJQGEZDGNBVGY3TQOJQ" 1
    [49, 50, 51, 52, 53, 54, 55, 56, 57, 48, 49, 50, 51, 52, 53, 54, 55, 56, 57, 48]
    (by decide)

/-- C9 (confirmed, for well-formed secrets): for a profile whose non-empty
secret decodes as base32 (as every secret the app generates does) and current
counter `⌊now/30⌋`, `verify_totp(token, valid_window = 1)` returns `True` iff
the stripped token equals the code for counter−1, counter or counter+1; a
token that does not strip to exactly 6 ASCII digits is rejected (by the early
format check, before any HMAC is computed); and `last_verified_at` is set to
the verification time exactly when the result is `True`.  `30 ≤ now` keeps the
counter−1 case inside the range where Python's `struct.pack(">Q", ·)` is
defined. -/
theorem verifyTotp_spec (p : UserMFA) (token : String) (now : Nat) (key : List Nat)
    (hs : p.secret ≠ "")
    (hkey : base32Decode (p.secret ++ String.mk
      (List.replicate ((8 - p.secret.length % 8) % 8) '=')) = some key)
    (hnow : 30 ≤ now) :
    ((p.verifyTotp token 1 now).1 = true ↔
      (some token.trim = totpCodeForCounter p.secret 6 (((now / 30 : Nat) : Int) - 1) ∨
       some token.trim = totpCodeForCounter p.secret 6 ((now / 30 : Nat) : Int) ∨
       some token.trim = totpCodeForCounter p.secret 6 (((now / 30 : Nat) : Int) + 1))) ∧
    (¬ (token.trim.length = 6 ∧ (∀ c ∈ token.trim.toList, c.isDigit = true) ∧
        token.trim.toList ≠ []) → (p.verifyTotp token 1 now).1 = false) ∧
    ((p.verifyTotp token 1 now).1 = true →
      (p.verifyTotp token 1 now).2 = ⟨p.secret, p.is_enrolled, some now⟩) ∧
    ((p.verifyTotp token 1 now).1 = false → (p.verifyTotp token 1 now).2 = p) := by
  have hunf : p.verifyTotp token 1 now =
      if p.secret = "" then (false, p)
      else if ¬ (token.trim.toList ≠ [] ∧ token.trim.toList.all Char.isDigit = true) ∨
          token.trim.length ≠ 6 then (false, p)
      else if (((List.range (2 * 1 + 1)).map (fun i => (i : Int) - ((1 : Nat) : Int))).any
          (fun off => totpCodeForCounter p.secret 6 (((now / 30 : Nat) : Int) + off) ==
            some token.trim)) = true then
        (true, ⟨p.secret, p.is_enrolled, some now⟩)
      else (false, p) := rfl
  have hoffs : ((List.range (2 * 1 + 1)).map (fun i => (i : Int) - ((1 : Nat) : Int))) =
      [-1, 0, 1] := by decide
  have hC : (([(-1 : Int), 0, 1]).any
      (fun off => totpCodeForCounter p.secret 6 (((now / 30 : Nat) : Int) + off) ==
        some token.trim)) = true ↔
      (some token.trim = totpCodeForCounter p.secret 6 (((now / 30 : Nat) : Int) - 1) ∨
       some token.trim = totpCodeForCounter p.secret 6 ((now / 30 : Nat) : Int) ∨
       some token.trim = totpCodeForCounter p.secret 6 (((now / 30 : Nat) : Int) + 1)) := by
    rw [List.any_eq_true]
    constructor
    · rintro ⟨off, hmem, hoff⟩
      have heq := beq_iff_eq.mp hoff
      rcases List.mem_cons.mp hmem with rfl | hmem'
      · left
        rw [show ((now / 30 : Nat) : Int) - 1 = ((now / 30 : Nat) : Int) + (-1) by ring]
        exact heq.symm
      · rcases List.mem_cons.mp hmem' with rfl | hmem''
        · right; left
          rw [show ((now / 30 : Nat) : Int) = ((now / 30 : Nat) : Int) + 0 by ring]
          exact heq.symm
        · rcases List.mem_cons.mp hmem'' with rfl | hmem'''
          · right; right
            exact heq.symm
          · exact absurd hmem''' (List.not_mem_nil off)
    · intro hdisj
      rcases hdisj with hd | hd | hd
      · refine ⟨-1, by decide, beq_iff_eq.mpr ?_⟩
        rw [show ((now / 30 : Nat) : Int) + (-1) = ((now / 30 : Nat) : Int) - 1 by ring]
        exact hd.symm
      · refine ⟨0, by decide, beq_iff_eq.mpr ?_⟩
        rw [show ((now / 30 : Nat) : Int) + 0 = ((now / 30 : Nat) : Int) by ring]
        exact hd.symm
      · exact ⟨1, by decide, beq_iff_eq.mpr hd.symm⟩
  rw [hunf, if_neg hs, hoffs]
  by_cases hfmt : ¬ (token.trim.toList ≠ [] ∧ token.trim.toList.all Char.isDigit = true) ∨
      token.trim.length ≠ 6
  · rw [if_pos hfmt]
    refine ⟨?_, ?_, ?_, ?_⟩
    · constructor
      · intro hff
        exact Bool.noConfusion hff
      · intro hdisj
        exfalso
        have hfmt2 : token.trim.length = 6 ∧ (∀ c ∈ token.trim.toList, c.isDigit = true) ∧
            token.trim.toList ≠ [] := by
          rcases hdisj with hd | hd | hd <;>
            exact totpCodeForCounter_format p.secret _ token.trim hd.symm
        rcases hfmt with hbad | hbad
        · refine hbad ⟨hfmt2.2.2, ?_⟩
          rw [List.all_eq_true]
          exact hfmt2.2.1
        · exact hbad hfmt2.1
    · intro _
      rfl
    · intro hff
      exact Bool.noConfusion hff
    · intro _
      rfl
  · rw [if_neg hfmt]
    by_cases hany : (([(-1 : Int), 0, 1]).any
        (fun off => totpCodeForCounter p.secret 6 (((now / 30 : Nat) : Int) + off) ==
          some token.trim)) = true
    · rw [if_pos hany]
      refine ⟨?_, ?_, ?_, ?_⟩
      · exact ⟨fun _ => hC.mp hany, fun _ => rfl⟩
      · intro hbad
        exfalso
        push_neg at hfmt
        refine hbad ⟨hfmt.2, ?_, hfmt.1.1⟩
        intro c hc
        exact List.all_eq_true.mp hfmt.1.2 c hc
      · intro _
        rfl
      · intro hff
        exact Bool.noConfusion hff
    · rw [if_neg hany]
      refine ⟨?_, ?_, ?_, ?_⟩
      · constructor
        · intro hff
          exact Bool.noConfusion hff
        · intro hdisj
          exact absurd (hC.mpr hdisj) hany
      · intro _
        rfl
      · intro hff
        exact Bool.noConfusion hff
      · intro _
        rfl

theorem verifyTotp_spec_witness :
    (((UserMFA.mk "GEZDGNBVGY3TQOJQGEZDGNBVGY3TQOJQ" true none).verifyTotp "287082" 1 59).1 =
        true ↔
      (some (String.trim "287082") =
        totpCodeForCounter "GEZDGNBVGY3TQOJQGEZDGNBVGY3TQOJQ" 6 (((59 / 30 : Nat) : Int) - 1) ∨
       some (String.trim "287082") =
        totpCodeForCounter "GEZDGNBVGY3TQOJQGEZDGNBVGY3TQOJQ" 6 ((59 / 30 : Nat) : Int) ∨
       some (String.trim "287082") =
        totpCodeForCounter "GEZDGNBVGY3TQOJQGEZDGNBVGY3TQOJQ" 6
          (((59 / 30 : Nat) : Int) + 1))) ∧
    (¬ ((String.trim "287082").length = 6 ∧
        (∀ c ∈ (String.trim "287082").toList, c.isDigit = true) ∧
        (String.trim "287082").toList ≠ []) →
      (((UserMFA.mk "GEZDGNBVGY3TQOJQGEZDGNBVGY3TQOJQ" true none).verifyTotp
        "287082" 1 59).1 = false)) ∧
    ((((UserMFA.mk "GEZDGNBVGY3TQOJQGEZDGNBVGY3TQOJQ" true none).verifyTotp
        "287082" 1 59).1 = true →
      ((UserMFA.mk "GEZDGNBVGY3TQOJQGEZDGNBVGY3TQOJQ" true none).verifyTotp
        "287082" 1 59).2 =
        UserMFA.mk "GEZDGNBVGY3TQOJQGEZDGNBVGY3TQOJQ" true (some 59))) ∧
    ((((UserMFA.mk "GEZDGNBVGY3TQOJQGEZDGNBVGY3TQOJQ" true none).verifyTotp
        "287082" 1 59).1 = false →
      ((UserMFA.mk "GEZDGNBVGY3TQOJQGEZDGNBVGY3TQOJQ" true none).verifyTotp
        "287082" 1 59).2 = UserMFA.mk "GEZDGNBVGY3TQOJQGEZDGNBVGY3TQOJQ" true none)) :=
  verifyTotp_spec (UserMFA.mk "GEZDGNBVGY3TQOJQGEZDGNBVGY3TQOJQ" true none) "287082" 59
    [49, 50, 51, 52, 53, 54, 55, 56, 57, 48, 49, 50, 51, 52, 53, 54, 55, 56, 57, 48]
    (by decide) (by decide) (by decide)

end ChurchDB
